import Mathlib

/-!
Verification of the greenis RESP server: a shallow embedding of
`src/codec.rs` (the RESP decoder and encoder) and `src/types.rs` (the
value model, command parsing and command execution), together with
proofs of the specification's claims about them.

Bytes are modelled as `Nat` (0-255 on the wire) and byte buffers as
`List Nat`.  Rust `String` values are modelled as their lists of Unicode
scalar values (`List Nat`); `String::into_bytes` is `utf8Encode` and
`str::from_utf8` is `utf8Decode`.
-/

/-- Unicode scalar values of a string literal, used to write byte lists
and character lists readably (all literals used are ASCII, where the
scalar values and the UTF-8 bytes coincide). -/
def ascii (s : String) : List Nat := s.toList.map Char.toNat

/-- Is `c` a UTF-8 continuation byte (0x80-0xBF)? -/
def isCont (c : Nat) : Bool := 128 ≤ c && c ≤ 191

/-- Valid second byte of a three-byte UTF-8 sequence with lead `c1`. -/
def utf8Mid3 (c1 c2 : Nat) : Bool :=
  if c1 = 224 then 160 ≤ c2 && c2 ≤ 191
  else if c1 = 237 then 128 ≤ c2 && c2 ≤ 159
  else isCont c2

/-- Valid second byte of a four-byte UTF-8 sequence with lead `c1`. -/
def utf8Mid4 (c1 c2 : Nat) : Bool :=
  if c1 = 240 then 144 ≤ c2 && c2 ≤ 191
  else if c1 = 244 then 128 ≤ c2 && c2 ≤ 143
  else isCont c2

/-- Continuation of a two-byte UTF-8 sequence with lead `c1`: the scalar
value and the remaining bytes. -/
def utf8Two (c1 : Nat) : List Nat → Option (Nat × List Nat)
  | c2 :: rest =>
    if isCont c2 then some ((c1 - 192) * 64 + (c2 - 128), rest) else none
  | [] => none

/-- Continuation of a three-byte UTF-8 sequence with lead `c1`. -/
def utf8Three (c1 : Nat) : List Nat → Option (Nat × List Nat)
  | c2 :: c3 :: rest =>
    if utf8Mid3 c1 c2 && isCont c3 then
      some ((c1 - 224) * 4096 + (c2 - 128) * 64 + (c3 - 128), rest)
    else none
  | _ => none

/-- Continuation of a four-byte UTF-8 sequence with lead `c1`. -/
def utf8Four (c1 : Nat) : List Nat → Option (Nat × List Nat)
  | c2 :: c3 :: c4 :: rest =>
    if utf8Mid4 c1 c2 && isCont c3 && isCont c4 then
      some ((c1 - 240) * 262144 + (c2 - 128) * 4096 + (c3 - 128) * 64 + (c4 - 128), rest)
    else none
  | _ => none

/-- One step of UTF-8 decoding after a non-ASCII lead byte `c1`. -/
def utf8Multi (c1 : Nat) (rest : List Nat) : Option (Nat × List Nat) :=
  if 194 ≤ c1 && c1 ≤ 223 then utf8Two c1 rest
  else if 224 ≤ c1 && c1 ≤ 239 then utf8Three c1 rest
  else if 240 ≤ c1 && c1 ≤ 244 then utf8Four c1 rest
  else none

/-- Fuel-based UTF-8 decoding loop (each step consumes at least one
byte, so fuel = input length always suffices). -/
def utf8DecodeAux : Nat → List Nat → Option (List Nat)
  | _, [] => some []
  | 0, _ :: _ => none
  | fuel + 1, c1 :: rest =>
    if c1 < 128 then (utf8DecodeAux fuel rest).map (c1 :: ·)
    else
      match utf8Multi c1 rest with
      | some (cp, rest2) => (utf8DecodeAux fuel rest2).map (cp :: ·)
      | none => none

/-- UTF-8 decoding as validated by Rust `str::from_utf8`: the list of
Unicode scalar values, or `none` on invalid UTF-8. -/
def utf8Decode (s : List Nat) : Option (List Nat) := utf8DecodeAux s.length s

/-- UTF-8 encoding of a list of Unicode scalar values (Rust
`String::into_bytes` / `str::as_bytes`). -/
def utf8Encode : List Nat → List Nat
  | [] => []
  | c :: rest =>
    (if c < 128 then [c]
     else if c < 2048 then [192 + c / 64, 128 + c % 64]
     else if c < 65536 then [224 + c / 4096, 128 + c / 64 % 64, 128 + c % 64]
     else [240 + c / 262144, 128 + c / 4096 % 64, 128 + c / 64 % 64, 128 + c % 64])
      ++ utf8Encode rest

/-- Unicode whitespace, as Rust `char::is_whitespace` (the White_Space
property). -/
def isWS (c : Nat) : Bool :=
  c = 9 || c = 10 || c = 11 || c = 12 || c = 13 || c = 32 ||
  c = 133 || c = 160 || c = 5760 || (8192 ≤ c && c ≤ 8202) ||
  c = 8232 || c = 8233 || c = 8239 || c = 8287 || c = 12288

/-- Rust `str::trim`: strip leading and trailing whitespace characters. -/
def trimWS (cps : List Nat) : List Nat :=
  ((cps.dropWhile isWS).reverse.dropWhile isWS).reverse

/-- Helper for `splitWS`: `acc` accumulates the current token
(reversed). -/
def splitWSAux : List Nat → List Nat → List (List Nat)
  | [], acc => if acc = [] then [] else [acc.reverse]
  | c :: rest, acc =>
    if isWS c then
      if acc = [] then splitWSAux rest [] else acc.reverse :: splitWSAux rest []
    else splitWSAux rest (c :: acc)

/-- Rust `str::split_whitespace`: the whitespace-separated tokens, empty
tokens dropped. -/
def splitWS (cps : List Nat) : List (List Nat) := splitWSAux cps []

/-- Decimal ASCII digits of `n`, most significant first; fuel-based so
that it reduces in the kernel.  Produces `[]` for `n = 0` (that case is
handled by `natToBytes`). -/
def natDigitsAux : Nat → Nat → List Nat
  | 0, _ => []
  | _ + 1, 0 => []
  | fuel + 1, n + 1 => natDigitsAux fuel ((n + 1) / 10) ++ [48 + (n + 1) % 10]

/-- Rust `usize::to_string` (and the nonnegative case of
`i64::to_string`) as ASCII character codes. -/
def natToBytes (n : Nat) : List Nat := if n = 0 then [48] else natDigitsAux n n

/-- Rust `i64::to_string` as ASCII character codes. -/
def intToBytes (i : Int) : List Nat :=
  if i < 0 then 45 :: natToBytes (-i).toNat else natToBytes i.toNat

/-- Digit-string value used by `parseI64`: `none` unless the list is
nonempty and all ASCII digits. -/
def digitsToNat? (ds : List Nat) : Option Nat :=
  if ds = [] then none
  else if ds.all fun c => 48 ≤ c && c ≤ 57 then
    some (ds.foldl (fun a c => a * 10 + (c - 48)) 0)
  else none

/-- Rust `str::parse::<i64>()` on a list of characters: an optional
sign, then one or more ASCII digits, in range for a signed 64-bit
integer (out-of-range input is an error, not wrapped). -/
def parseI64 (ds : List Nat) : Option Int :=
  match ds with
  | [] => none
  | c :: rest =>
    if c = 43 then
      (digitsToNat? rest).bind fun m => if m < 2 ^ 63 then some (m : Int) else none
    else if c = 45 then
      (digitsToNat? rest).bind fun m => if m ≤ 2 ^ 63 then some (-(m : Int)) else none
    else
      (digitsToNat? ds).bind fun m => if m < 2 ^ 63 then some (m : Int) else none

/-- `BulkString(Vec<u8>)` from `types.rs`: a binary-safe byte string. -/
structure BulkString where
  bytes : List Nat
  deriving DecidableEq

/-- `BulkString::append`: the net effect of `Vec::append` on `self` is
to append `other`'s bytes. -/
def BulkString.append (a other : BulkString) : BulkString := ⟨a.bytes ++ other.bytes⟩

/-- `RespValue` from `types.rs`.  Rust `String` payloads are lists of
Unicode scalar values; the `VecDeque` of the `Array` variant is a
list. -/
inductive RespValue where
  | simpleString (s : List Nat)
  | error (msg : List Nat) (detail : Option (List Nat))
  | integer (i : Int)
  | bulkString (b : BulkString)
  | array (elems : List RespValue)
  | null

/-- `RespValue::to_string`: the text of a simple string, or of a bulk
string whose bytes are valid UTF-8. -/
def RespValue.toString : RespValue → Option (List Nat)
  | .simpleString s => some s
  | .bulkString b => utf8Decode b.bytes
  | _ => none

abbrev RedisKey := BulkString
abbrev RedisValue := BulkString

/-- `RedisCmd` from `types.rs`. -/
inductive RedisCmd where
  | ping (payload : Option RedisValue)
  | get (key : RedisKey)
  | set (key : RedisKey) (val : RedisValue)
  | append (key : RedisKey) (val : RedisValue)
  | keys (pat : RedisValue)
  | exists (key : RedisKey)
  | command
  deriving DecidableEq

/-- The shared store `HashMap<RedisKey, RedisValue>`, modelled as an
association list with at most one binding per key. -/
abbrev Store := List (RedisKey × RedisValue)

/-- `HashMap::get`. -/
def storeGet : Store → RedisKey → Option RedisValue
  | [], _ => none
  | (k', v) :: rest, k => if k' = k then some v else storeGet rest k

/-- `HashMap::insert` (also the net effect of `entry(..).or_insert(..)`
followed by a mutation): bind `k` to `v`, replacing any existing
binding. -/
def storeInsert : Store → RedisKey → RedisValue → Store
  | [], k, v => [(k, v)]
  | (k', v') :: rest, k, v =>
    if k' = k then (k, v) :: rest else (k', v') :: storeInsert rest k v

/-- `HashMap::contains_key`. -/
def storeContains (st : Store) (k : RedisKey) : Bool := (storeGet st k).isSome

/-- `HashMap::keys` (iteration order is a model artefact, as it is for
the hash map). -/
def storeKeys (st : Store) : List RedisKey := st.map (·.1)

/-- `RedisCmd::execute`: run the command against the store, returning
the reply (`Err ()` for the unimplemented `COMMAND`) and the updated
store. -/
def RedisCmd.execute : RedisCmd → Store → Except Unit RespValue × Store
  | .ping none, st => (.ok (.simpleString (ascii "PONG")), st)
  | .ping (some v), st => (.ok (.bulkString v), st)
  | .get k, st =>
    match storeGet st k with
    | some v => (.ok (.bulkString v), st)
    | none => (.ok .null, st)
  | .set k v, st => (.ok (.simpleString (ascii "OK")), storeInsert st k v)
  | .append k v, st =>
    let newVal := ((storeGet st k).getD ⟨[]⟩).append v
    (.ok (.integer (newVal.bytes.length : Int)), storeInsert st k newVal)
  | .keys _, st => (.ok (.array ((storeKeys st).map .bulkString)), st)
  | .exists k, st => (.ok (.integer (if storeContains st k then 1 else 0)), st)
  | .command, st => (.error (), st)

/-- `get_next_value`: pop the next argument from the front, requiring a
bulk string. -/
def getNextValue : List RespValue → Except String (BulkString × List RespValue)
  | [] => .error "Not enough arguments"
  | .bulkString b :: rest => .ok (b, rest)
  | _ :: _ => .error "Invalid argument, must be BulkString"

/-- ASCII upper-casing of one character: `a`-`z` maps to `A`-`Z`. -/
def upChar (c : Nat) : Nat := if 97 ≤ c && c ≤ 122 then c - 32 else c

/-- ASCII upper-casing of a character list.  (Rust `str::to_uppercase`
performs full Unicode upper-casing; every input exercised by the claims
is ASCII, where the two agree.) -/
def toUpper (cps : List Nat) : List Nat := cps.map upChar

/-- The `match cmd.to_string().unwrap_or_default().to_uppercase().as_ref()`
table of `TryFrom<RespValue> for RedisCmd`: `name` is the already
upper-cased command name, `rest` the remaining arguments. -/
def cmdFromName (name : List Nat) (rest : List RespValue) : Except String RedisCmd :=
  if name = ascii "GET" then
    match getNextValue rest with
    | .ok (k, _) => .ok (.get k)
    | .error e => .error e
  else if name = ascii "SET" then
    match getNextValue rest with
    | .ok (k, rest1) =>
      match getNextValue rest1 with
      | .ok (v, _) => .ok (.set k v)
      | .error e => .error e
    | .error e => .error e
  else if name = ascii "APPEND" then
    match getNextValue rest with
    | .ok (k, rest1) =>
      match getNextValue rest1 with
      | .ok (v, _) => .ok (.append k v)
      | .error e => .error e
    | .error e => .error e
  else if name = ascii "PING" then
    .ok (.ping (match getNextValue rest with
      | .ok (v, _) => some v
      | .error _ => none))
  else if name = ascii "KEYS" then
    match getNextValue rest with
    | .ok (p, _) => .ok (.keys p)
    | .error e => .error e
  else if name = ascii "EXISTS" then
    match getNextValue rest with
    | .ok (k, _) => .ok (.exists k)
    | .error e => .error e
  else if name = ascii "COMMAND" then .ok .command
  else if name = [] then .error "No command specified"
  else .error "Invalid command"

/-- `TryFrom<RespValue> for RedisCmd`: validate an array value against
the command table; only arrays are accepted, the popped first element is
the command name. -/
def RedisCmd.tryFrom (resp : RespValue) : Except String RedisCmd :=
  match resp with
  | .array elems =>
    match elems with
    | [] => .error "No command specified"
    | cmd :: rest => cmdFromName (toUpper ((cmd.toString).getD [])) rest
  | _ => .error "Invalid command"

namespace RespCodec

/-- `encode_string`: a tag byte, the string's UTF-8 bytes, then CRLF. -/
def encodeString (tag : Nat) (s : List Nat) : List Nat := tag :: utf8Encode s ++ [13, 10]

mutual

/-- `RespCodec::encode` (`codec.rs`): serialize a value to wire bytes.
Total on all six variants; the optional `Error` detail is not
emitted. -/
def encode : RespValue → List Nat
  | .null => [36, 45, 49, 13, 10]
  | .simpleString s => encodeString 43 s
  | .error msg _ => encodeString 45 msg
  | .integer i => encodeString 58 (intToBytes i)
  | .bulkString b => 36 :: natToBytes b.bytes.length ++ [13, 10] ++ b.bytes ++ [13, 10]
  | .array vs => 42 :: natToBytes vs.length ++ [13, 10] ++ encodeList vs

/-- The `values.drain(..).for_each(..)` loop of the `Array` arm:
elements encoded recursively, in order. -/
def encodeList : List RespValue → List Nat
  | [] => []
  | v :: vs => encode v ++ encodeList vs

end

end RespCodec

/-- Outcome of running a parser on the input available so far:
`done a n` (value `a`, `n` bytes consumed), `more c` (insufficient
input; `c` bytes are committed into the resumable partial-parse state),
or `fail` (parse error). -/
inductive PR (α : Type) where
  | done (a : α) (n : Nat)
  | more (c : Nat)
  | fail

/-- Index of the first `\r\n`, the `take_until_bytes(&b"\r\n")` scan. -/
def findCRLF : List Nat → Option Nat
  | [] => none
  | [_] => none
  | c1 :: c2 :: rest =>
    if c1 = 13 && c2 = 10 then some 0 else (findCRLF (c2 :: rest)).map (· + 1)

/-- The `line()` parser: the bytes up to the first CRLF, with the
terminator consumed, decoded as UTF-8.  Until a full CRLF is present
nothing is committed (`recognize` needs the whole line contiguous). -/
def parseLine (s : List Nat) : PR (List Nat) :=
  match findCRLF s with
  | none => .more 0
  | some i =>
    match utf8Decode (s.take i) with
    | some cps => .done cps (i + 2)
    | none => .fail

/-- The `integer()` parser: a line, trimmed, parsed as an `i64`. -/
def parseInteger (s : List Nat) : PR Int :=
  match parseLine s with
  | .more c => .more c
  | .fail => .fail
  | .done cps n =>
    match parseI64 (trimWS cps) with
    | some v => .done v n
    | none => .fail

/-- The `bulk()` parser (entered after the `$` tag): a length line,
then for a nonnegative length `L` exactly `L` raw payload bytes and a
CRLF; a negative length yields `Null`.  A completed length line is
committed; `take(L)` and `range(&b"\r\n")` are all-or-nothing. -/
def parseBulk (s : List Nat) : PR RespValue :=
  match parseInteger s with
  | .more c => .more c
  | .fail => .fail
  | .done len n =>
    if len < 0 then .done .null n
    else if (s.drop n).length < len.toNat then .more n
    else if ((s.drop n).drop len.toNat).length < 2 then .more (n + len.toNat)
    else if ((s.drop n).drop len.toNat).take 2 = [13, 10] then
      .done (.bulkString ⟨(s.drop n).take len.toNat⟩) (n + len.toNat + 2)
    else .fail

/-- The `count_min_max(length, length, byte(b'$').with(bulk()))` loop:
exactly `k` `$`-tagged bulk elements; completed elements are committed
into the partial state. -/
def parseElems : Nat → List Nat → PR (List RespValue)
  | 0, _ => .done [] 0
  | _ + 1, [] => .more 0
  | k + 1, c :: rest =>
    if c = 36 then
      match parseBulk rest with
      | .more cm => .more (1 + cm)
      | .fail => .fail
      | .done v n =>
        match parseElems k (rest.drop n) with
        | .more cm => .more (1 + n + cm)
        | .fail => .fail
        | .done vs m => .done (v :: vs) (1 + n + m)
    else .fail

/-- The `array()` parser (entered after the `*` tag): a count line,
then that many elements; a negative count yields `Null` with no element
reads. -/
def parseArray (s : List Nat) : PR RespValue :=
  match parseInteger s with
  | .more c => .more c
  | .fail => .fail
  | .done len n =>
    if len < 0 then .done .null n
    else
      match parseElems len.toNat (s.drop n) with
      | .more c => .more (n + c)
      | .fail => .fail
      | .done vs m => .done (.array vs) (n + m)

/-- The inline `simple_command` parser: one line, split on whitespace
into bulk-string tokens, wrapped as an array. -/
def parseSimple (s : List Nat) : PR RespValue :=
  match parseLine s with
  | .more c => .more c
  | .fail => .fail
  | .done cps n =>
    .done (.array ((splitWS cps).map fun t => .bulkString ⟨utf8Encode t⟩)) n

/-- `resp_parser`: `choice((byte(b'*').with(array()), simple_command()))`.
The `*` byte, once read, is committed (`choice` does not backtrack over
committed input). -/
def respParser : List Nat → PR RespValue
  | [] => .more 0
  | c :: rest =>
    if c = 42 then
      match parseArray rest with
      | .more cm => .more (1 + cm)
      | .fail => .fail
      | .done v n => .done v (1 + n)
    else parseSimple (c :: rest)

namespace RespCodec

/-- The outcome of one `RespCodec::decode` call.  `ok` carries the
`(value?, consumed, new state)` triple of a normal return; `error` a
parse-error message; `panic` models the Rust panic raised inside the
`map_err` closure, where the message is formatted via
`str::from_utf8(src).unwrap()` over the whole unconsumed buffer —
`unwrap` aborts instead of returning when that buffer is not valid
UTF-8. -/
inductive DecodeResult where
  | ok : Option RespValue × Nat × List Nat → DecodeResult
  | error : String → DecodeResult
  | panic : DecodeResult

/-- `RespCodec::decode`.  The decoder state models the prefix of the
current message already committed into combine's partial parse state
(`AnySendPartialState`): resuming that state on the unconsumed buffer
behaves like running `respParser` afresh on state ++ buffer, shifted by
the state's length.  `combine::stream::decode` reports as `removed_len`
the bytes committed in this call — also when no value is produced yet —
and the caller removes them from its buffer (`src.advance`); on a
completed value the partial state resets.  On a parse error the source
formats the message via `str::from_utf8(src).unwrap()` with `src` the
unconsumed buffer (the `?` fires before `src.advance`), so it returns
`Err` only when that buffer is valid UTF-8 (the message content is
abstracted here) and panics otherwise. -/
def decode (st buf : List Nat) : DecodeResult :=
  match respParser (st ++ buf) with
  | .fail =>
    match utf8Decode buf with
    | some _ => .error "parse error"
    | none => .panic
  | .done v n => .ok (some v, n - st.length, [])
  | .more c => .ok (none, c - st.length, st ++ buf.take (c - st.length))

end RespCodec

/-- Concatenation of byte chunks. -/
def catChunks : List (List Nat) → List Nat
  | [] => []
  | c :: cs => c ++ catChunks cs

/-- The per-connection driver loop restricted to one message: append
each arriving chunk to the unconsumed buffer, call `decode` threading
the decoder state, drop the consumed bytes, and stop at the first
decoded value, returning it with the total consumed-byte count. -/
def runChunks (st buf : List Nat) (acc : Nat) : List (List Nat) → Option (RespValue × Nat)
  | [] => none
  | ch :: chs =>
    match RespCodec.decode st (buf ++ ch) with
    | .error _ => none
    | .panic => none
    | .ok (some v, n, _) => some (v, acc + n)
    | .ok (none, n, st') => runChunks st' ((buf ++ ch).drop n) (acc + n) chs

/-- A reachable decoder state: empty, or a committed prefix of an
in-progress message (on which the parser still requests more input,
everything committed). -/
def WFState (st : List Nat) : Prop := st = [] ∨ respParser st = .more st.length

/-- The shape of every value the decoder can return: `Null`, or an
array whose elements are all bulk strings or `Null`. -/
def TopShape (v : RespValue) : Prop :=
  v = .null ∨ ∃ l, v = .array l ∧ ∀ e ∈ l, (∃ b, e = .bulkString b) ∨ e = .null

/-- The single key a command writes, if any. -/
def writeKey : RedisCmd → Option RedisKey
  | .set k _ => some k
  | .append k _ => some k
  | _ => none

/-- Commands that never mutate the store. -/
def RedisCmd.isReadOnly : RedisCmd → Bool
  | .set _ _ => false
  | .append _ _ => false
  | _ => true

example : ascii "ab" = [97, 98] := rfl

example : utf8Decode [97, 98] = some [97, 98] := rfl

example : findCRLF [97, 13, 10] = some 1 := rfl

example : parseLine [97, 13, 10] = .done [97] 3 := rfl

example : parseI64 [49, 55] = some 17 := rfl

example : natToBytes 17 = [49, 55] := rfl

example : respParser (ascii "*-1\r\n") = .done .null 5 := rfl

example : RedisCmd.tryFrom (.array []) = .error "No command specified" := rfl

example : RedisCmd.tryFrom (.array [.bulkString ⟨ascii "get"⟩, .bulkString ⟨ascii "k"⟩]) =
    .ok (.get ⟨ascii "k"⟩) := rfl

example : RespCodec.decode [] (ascii "*1\r\n") = .ok (none, 4, ascii "*1\r\n") := rfl

example : RespCodec.decode [] (ascii "*-1\r\n") = .ok (some .null, 5, []) := rfl

example : RespCodec.decode [] (ascii "$-1\r\n") =
    .ok (some (.array [.bulkString ⟨ascii "$-1"⟩]), 5, []) := rfl

example : RespCodec.decode [] (ascii "*1\r\n$2\r\nok\r\n") =
    .ok (some (.array [.bulkString ⟨ascii "ok"⟩]), 12, []) := rfl

example : RespCodec.encode (.integer 17) = ascii ":17\r\n" := rfl

example : RespCodec.encode (.array [.bulkString ⟨ascii "ab"⟩, .null]) =
    ascii "*2\r\n$2\r\nab\r\n$-1\r\n" := rfl

/-! ### Basic lemmas about the helper functions -/

lemma natDigitsAux_mem : ∀ fuel n c, c ∈ natDigitsAux fuel n → 48 ≤ c ∧ c ≤ 57 := by
  intro fuel
  induction fuel with
  | zero => intro n c h; simp [natDigitsAux] at h
  | succ f ih =>
    intro n c h
    match n with
    | 0 => simp [natDigitsAux] at h
    | m + 1 =>
      simp only [natDigitsAux, List.mem_append, List.mem_singleton] at h
      rcases h with h | h
      · exact ih _ _ h
      · constructor <;> omega

lemma natToBytes_mem (n : Nat) : ∀ c ∈ natToBytes n, 48 ≤ c ∧ c ≤ 57 := by
  intro c h
  unfold natToBytes at h
  split at h
  · simp at h; omega
  · exact natDigitsAux_mem _ _ _ h

lemma intToBytes_mem (i : Int) : ∀ c ∈ intToBytes i, 45 ≤ c ∧ c ≤ 57 := by
  intro c h
  unfold intToBytes at h
  split at h
  · simp at h
    rcases h with h | h
    · omega
    · have := natToBytes_mem _ _ h; omega
  · have := natToBytes_mem _ _ h; omega

lemma utf8Encode_ascii : ∀ s, (∀ c ∈ s, c < 128) → utf8Encode s = s := by
  intro s
  induction s with
  | nil => intro _; rfl
  | cons c rest ih =>
    intro h
    have hc : c < 128 := h c (by simp)
    simp [utf8Encode, hc, ih fun x hx => h x (by simp [hx])]

lemma utf8Decode_ascii : ∀ s, (∀ c ∈ s, c < 128) → utf8Decode s = some s := by
  intro s
  unfold utf8Decode
  induction s with
  | nil => intro _; rfl
  | cons c rest ih =>
    intro h
    have hc : c < 128 := h c (by simp)
    simp only [List.length_cons, utf8DecodeAux, if_pos hc]
    rw [show utf8DecodeAux rest.length rest = some rest from ih fun x hx => h x (by simp [hx])]
    rfl

lemma upChar_idem (c : Nat) : upChar (upChar c) = upChar c := by
  by_cases h : (97 ≤ c && c ≤ 122) = true
  · simp only [Bool.and_eq_true, decide_eq_true_eq] at h
    have h1 : upChar c = c - 32 := by
      unfold upChar
      rw [if_pos (by simp only [Bool.and_eq_true, decide_eq_true_eq]; exact h)]
    rw [h1]
    unfold upChar
    rw [if_neg (by simp only [Bool.and_eq_true, decide_eq_true_eq]; omega)]
  · have h1 : upChar c = c := by unfold upChar; rw [if_neg h]
    rw [h1, h1]

lemma upChar_lt128 (c : Nat) (h : c < 128) : upChar c < 128 := by
  unfold upChar; split <;> omega

lemma toUpper_lt128 (l : List Nat) (h : ∀ c ∈ l, c < 128) : ∀ c ∈ toUpper l, c < 128 := by
  intro c hc
  simp only [toUpper, List.mem_map] at hc
  obtain ⟨a, ha, rfl⟩ := hc
  exact upChar_lt128 a (h a ha)

lemma toUpper_idem (l : List Nat) : toUpper (toUpper l) = toUpper l := by
  induction l with
  | nil => rfl
  | cons c rest ih =>
    simp only [toUpper, List.map_cons] at ih ⊢
    rw [upChar_idem, ih]

/-! ### Store lemmas -/

lemma storeGet_cons (k1 : RedisKey) (v1 : RedisValue) (rest : Store) (k : RedisKey) :
    storeGet ((k1, v1) :: rest) k = if k1 = k then some v1 else storeGet rest k := rfl

lemma storeGet_insert (st : Store) (k k' : RedisKey) (v : RedisValue) :
    storeGet (storeInsert st k v) k' = if k = k' then some v else storeGet st k' := by
  induction st with
  | nil => rfl
  | cons p rest ih =>
    obtain ⟨k1, v1⟩ := p
    by_cases h1 : k1 = k
    · subst h1
      simp only [storeInsert, if_pos rfl, storeGet_cons]
      by_cases h2 : k1 = k' <;> simp [h2, storeGet_cons]
    · simp only [storeInsert, if_neg h1, storeGet_cons, ih]
      by_cases h2 : k1 = k' <;> by_cases h3 : k = k' <;> simp_all

/-! ### Claim C3: negative-length policy -/

/-- C3 counterexample: at top level `$-1\r\n` is not array-prefixed, so
the decoder reads it as an inline command line and yields
`Array [BulkString "$-1"]`, not `Null`. -/
theorem c3_counterexample :
    RespCodec.decode [] (ascii "$-1\r\n") =
      .ok (some (.array [.bulkString ⟨ascii "$-1"⟩]), 5, []) ∧
    RespValue.array [.bulkString ⟨ascii "$-1"⟩] ≠ .null :=
  ⟨rfl, fun h => RespValue.noConfusion h⟩

/-- C3 (amended): `*-1\r\n` decodes to `Null`, consuming exactly its
five header bytes; a negative bulk-string length yields `Null` only in
element position inside an array, while a top-level `$-1\r\n` decodes as
an inline command to `Array [BulkString "$-1"]`. -/
theorem c3_negative_length_policy :
    RespCodec.decode [] (ascii "*-1\r\n") = .ok (some .null, 5, []) ∧
    RespCodec.decode [] (ascii "*1\r\n$-1\r\n") = .ok (some (.array [.null]), 9, []) ∧
    RespCodec.decode [] (ascii "$-1\r\n") =
      .ok (some (.array [.bulkString ⟨ascii "$-1"⟩]), 5, []) :=
  ⟨rfl, rfl, rfl⟩

/-! ### Claim C5: the encoder -/

lemma encodeList_eq_foldr (vs : List RespValue) :
    RespCodec.encodeList vs = (vs.map RespCodec.encode).foldr (· ++ ·) [] := by
  induction vs with
  | nil => rfl
  | cons v rest ih => simp [RespCodec.encodeList, ih]

/-- C5: the encoder is total on all six variants and produces exactly
the claimed byte strings; the optional `Error` detail is not emitted,
and array elements are encoded recursively in order. -/
theorem c5_encoder_total_mapping :
    (RespCodec.encode .null = ascii "$-1\r\n") ∧
    (∀ s, RespCodec.encode (.simpleString s) = 43 :: utf8Encode s ++ [13, 10]) ∧
    (∀ msg d, RespCodec.encode (.error msg d) = 45 :: utf8Encode msg ++ [13, 10]) ∧
    (∀ i, RespCodec.encode (.integer i) = 58 :: intToBytes i ++ [13, 10]) ∧
    (∀ b, RespCodec.encode (.bulkString b) =
      36 :: natToBytes b.bytes.length ++ [13, 10] ++ b.bytes ++ [13, 10]) ∧
    (∀ vs, RespCodec.encode (.array vs) =
      42 :: natToBytes vs.length ++ [13, 10] ++ (vs.map RespCodec.encode).foldr (· ++ ·) []) := by
  refine ⟨rfl, fun s => rfl, fun msg d => rfl, fun i => ?_, fun b => rfl, fun vs => ?_⟩
  · show RespCodec.encodeString 58 (intToBytes i) = _
    unfold RespCodec.encodeString
    rw [utf8Encode_ascii _ fun c hc => by have := intToBytes_mem i c hc; omega]
  · show 42 :: natToBytes vs.length ++ [13, 10] ++ RespCodec.encodeList vs = _
    rw [encodeList_eq_foldr]

/-! ### Claim C6: APPEND accumulation -/

/-- C6: from any starting store, `SET k "ab"`, `APPEND k "cd"`, `GET k`
reply `OK`, `Integer 4` and `BulkString "abcd"`; in general APPEND
treats an absent key as the empty binary string, appends the value's
bytes and replies with the new total stored length. -/
theorem c6_append_accumulation :
    (∀ (st : Store) (k : RedisKey),
      (RedisCmd.execute (.set k ⟨ascii "ab"⟩) st).1 = .ok (.simpleString (ascii "OK")) ∧
      (RedisCmd.execute (.append k ⟨ascii "cd"⟩)
        (RedisCmd.execute (.set k ⟨ascii "ab"⟩) st).2).1 = .ok (.integer 4) ∧
      (RedisCmd.execute (.get k)
        (RedisCmd.execute (.append k ⟨ascii "cd"⟩)
          (RedisCmd.execute (.set k ⟨ascii "ab"⟩) st).2).2).1 =
        .ok (.bulkString ⟨ascii "abcd"⟩)) ∧
    (∀ (st : Store) (k : RedisKey) (v : RedisValue),
      RedisCmd.execute (.append k v) st =
        (.ok (.integer ((((storeGet st k).getD ⟨[]⟩).bytes.length + v.bytes.length : Nat) : Int)),
         storeInsert st k ⟨((storeGet st k).getD ⟨[]⟩).bytes ++ v.bytes⟩)) := by
  constructor
  · intro st k
    refine ⟨rfl, ?_, ?_⟩
    · show (RedisCmd.execute (.append k ⟨ascii "cd"⟩) (storeInsert st k ⟨ascii "ab"⟩)).1 = _
      simp only [RedisCmd.execute, storeGet_insert, if_pos rfl, Option.getD_some,
        BulkString.append]
      rfl
    · show (RedisCmd.execute (.get k)
        (RedisCmd.execute (.append k ⟨ascii "cd"⟩) (storeInsert st k ⟨ascii "ab"⟩)).2).1 = _
      simp only [RedisCmd.execute, storeGet_insert, if_pos rfl, Option.getD_some,
        BulkString.append]
      rfl
  · intro st k v
    simp only [RedisCmd.execute, BulkString.append, List.length_append]

/-! ### Claim C9: frame effect of command execution -/

/-- C9: executing a command changes at most its own key's binding, and
the read-only commands (`PING`, `GET`, `KEYS`, `EXISTS`, `COMMAND`)
leave the store entirely unchanged. -/
theorem c9_frame_effect (cmd : RedisCmd) (st : Store) :
    (∀ k, writeKey cmd ≠ some k →
      storeGet (cmd.execute st).2 k = storeGet st k) ∧
    (cmd.isReadOnly = true → (cmd.execute st).2 = st) := by
  cases cmd
  · rename_i p
    cases p <;> simp [RedisCmd.execute, writeKey, RedisCmd.isReadOnly]
  · rename_i k
    cases h : storeGet st k <;> simp [RedisCmd.execute, h, writeKey, RedisCmd.isReadOnly]
  · rename_i k v
    refine ⟨fun k' hk => ?_, by simp [RedisCmd.isReadOnly]⟩
    rw [show (RedisCmd.execute (.set k v) st).2 = storeInsert st k v from rfl,
      storeGet_insert, if_neg fun h => hk (by simp [writeKey, h])]
  · rename_i k v
    refine ⟨fun k' hk => ?_, by simp [RedisCmd.isReadOnly]⟩
    rw [show (RedisCmd.execute (.append k v) st).2 =
        storeInsert st k (((storeGet st k).getD ⟨[]⟩).append v) from rfl,
      storeGet_insert, if_neg fun h => hk (by simp [writeKey, h])]
  · rename_i p
    simp [RedisCmd.execute, writeKey, RedisCmd.isReadOnly]
  · rename_i k
    simp [RedisCmd.execute, writeKey, RedisCmd.isReadOnly]
  · simp [RedisCmd.execute, writeKey, RedisCmd.isReadOnly]

/-- Witness for C9 at concrete inputs: a `SET` leaves another key's
binding unchanged, and `COMMAND` leaves the store unchanged. -/
theorem c9_frame_effect_witness :
    storeGet (RedisCmd.execute (.set ⟨[1]⟩ ⟨[2]⟩) []).2 ⟨[3]⟩ = storeGet [] ⟨[3]⟩ ∧
    (RedisCmd.execute .command []).2 = [] :=
  ⟨(c9_frame_effect (.set ⟨[1]⟩ ⟨[2]⟩) []).1 ⟨[3]⟩ (by decide),
   (c9_frame_effect .command []).2 (by decide)⟩

/-! ### Claim C2: the round-trip counterexample -/

/-- C2 counterexample: `Integer 0` is constructible and contains no
`Error` with a detail, but `decode(encode(Integer 0))` parses the bytes
`:0\r\n` as an inline command and yields `Array [BulkString ":0"]`, not
`Integer 0`. -/
theorem c2_counterexample :
    RespCodec.decode [] (RespCodec.encode (.integer 0)) =
      .ok (some (.array [.bulkString ⟨ascii ":0"⟩]), 4, []) ∧
    RespValue.array [.bulkString ⟨ascii ":0"⟩] ≠ .integer 0 :=
  ⟨rfl, fun h => RespValue.noConfusion h⟩

/-! ### Claim C8: unknown command and case-insensitivity -/

/-- C8: an unrecognized one-element command yields `Invalid command`,
distinguishable from the `No command specified` of the empty array, and
command-name matching is case-insensitive (an ASCII name parses exactly
as its upper-cased form). -/
theorem c8_unknown_and_case_insensitive :
    RedisCmd.tryFrom (.array [.bulkString ⟨ascii "FOOO"⟩]) = .error "Invalid command" ∧
    RedisCmd.tryFrom (.array []) = .error "No command specified" ∧
    "Invalid command" ≠ "No command specified" ∧
    (∀ (nm : List Nat) (rest : List RespValue), (∀ c ∈ nm, c < 128) →
      RedisCmd.tryFrom (.array (.bulkString ⟨nm⟩ :: rest)) =
        RedisCmd.tryFrom (.array (.bulkString ⟨toUpper nm⟩ :: rest))) := by
  refine ⟨rfl, rfl, by decide, fun nm rest h => ?_⟩
  show cmdFromName (toUpper ((RespValue.toString (.bulkString ⟨nm⟩)).getD [])) rest =
    cmdFromName (toUpper ((RespValue.toString (.bulkString ⟨toUpper nm⟩)).getD [])) rest
  have h1 : RespValue.toString (.bulkString ⟨nm⟩) = some nm := utf8Decode_ascii nm h
  have h2 : RespValue.toString (.bulkString ⟨toUpper nm⟩) = some (toUpper nm) :=
    utf8Decode_ascii _ (toUpper_lt128 nm h)
  rw [h1, h2, Option.getD_some, Option.getD_some, toUpper_idem]

/-- Witness for C8's case-insensitivity at a concrete input: `get`
parses as `GET` does. -/
theorem c8_witness :
    RedisCmd.tryFrom (.array [.bulkString ⟨ascii "get"⟩, .bulkString ⟨ascii "k"⟩]) =
      RedisCmd.tryFrom (.array [.bulkString ⟨toUpper (ascii "get")⟩, .bulkString ⟨ascii "k"⟩]) :=
  c8_unknown_and_case_insensitive.2.2.2 (ascii "get") [.bulkString ⟨ascii "k"⟩] (by decide)

/-! ### Claim C4: required command arguments -/

lemma getNextValue_ok (l : List RespValue) (b : BulkString) (r : List RespValue)
    (h : getNextValue l = .ok (b, r)) : l = .bulkString b :: r := by
  cases l with
  | nil => simp [getNextValue] at h
  | cons e rest =>
    cases e <;> simp [getNextValue] at h
    rw [h.1, h.2]

lemma cmdFromName_args (name : List Nat) (rest : List RespValue) (c : RedisCmd)
    (h : cmdFromName name rest = .ok c) :
    (∀ k, c = .get k → rest[0]? = some (.bulkString k)) ∧
    (∀ k v, c = .set k v →
      rest[0]? = some (.bulkString k) ∧ rest[1]? = some (.bulkString v)) ∧
    (∀ k v, c = .append k v →
      rest[0]? = some (.bulkString k) ∧ rest[1]? = some (.bulkString v)) ∧
    (∀ p, c = .keys p → rest[0]? = some (.bulkString p)) ∧
    (∀ k, c = .exists k → rest[0]? = some (.bulkString k)) := by
  unfold cmdFromName at h
  split at h
  · -- GET
    cases hg : getNextValue rest with
    | error e => simp [hg] at h
    | ok kv =>
      obtain ⟨k, r⟩ := kv
      simp only [hg] at h
      injection h with h
      subst h
      rw [getNextValue_ok rest k r hg]
      refine ⟨fun k' hk => ?_, fun k' v' hk => ?_, fun k' v' hk => ?_,
        fun p hk => ?_, fun k' hk => ?_⟩ <;> first
        | exact RedisCmd.noConfusion hk
        | (injection hk with h1; subst h1; simp)
  · split at h
    · -- SET
      cases hg : getNextValue rest with
      | error e => simp [hg] at h
      | ok kv =>
        obtain ⟨k, r1⟩ := kv
        simp only [hg] at h
        cases hg2 : getNextValue r1 with
        | error e => simp [hg2] at h
        | ok kv2 =>
          obtain ⟨v, r2⟩ := kv2
          simp only [hg2] at h
          injection h with h
          subst h
          rw [getNextValue_ok rest k r1 hg, getNextValue_ok r1 v r2 hg2]
          refine ⟨fun k' hk => ?_, fun k' v' hk => ?_, fun k' v' hk => ?_,
            fun p hk => ?_, fun k' hk => ?_⟩ <;> first
            | exact RedisCmd.noConfusion hk
            | (injection hk with h1 h2; subst h1; subst h2; simp)
    · split at h
      · -- APPEND
        cases hg : getNextValue rest with
        | error e => simp [hg] at h
        | ok kv =>
          obtain ⟨k, r1⟩ := kv
          simp only [hg] at h
          cases hg2 : getNextValue r1 with
          | error e => simp [hg2] at h
          | ok kv2 =>
            obtain ⟨v, r2⟩ := kv2
            simp only [hg2] at h
            injection h with h
            subst h
            rw [getNextValue_ok rest k r1 hg, getNextValue_ok r1 v r2 hg2]
            refine ⟨fun k' hk => ?_, fun k' v' hk => ?_, fun k' v' hk => ?_,
              fun p hk => ?_, fun k' hk => ?_⟩ <;> first
              | exact RedisCmd.noConfusion hk
              | (injection hk with h1 h2; subst h1; subst h2; simp)
      · split at h
        · -- PING
          injection h with h
          subst h
          exact ⟨fun k hk => RedisCmd.noConfusion hk, fun k v hk => RedisCmd.noConfusion hk,
            fun k v hk => RedisCmd.noConfusion hk, fun p hk => RedisCmd.noConfusion hk,
            fun k hk => RedisCmd.noConfusion hk⟩
        · split at h
          · -- KEYS
            cases hg : getNextValue rest with
            | error e => simp [hg] at h
            | ok kv =>
              obtain ⟨p, r⟩ := kv
              simp only [hg] at h
              injection h with h
              subst h
              rw [getNextValue_ok rest p r hg]
              refine ⟨fun k' hk => ?_, fun k' v' hk => ?_, fun k' v' hk => ?_,
                fun p' hk => ?_, fun k' hk => ?_⟩ <;> first
                | exact RedisCmd.noConfusion hk
                | (injection hk with h1; subst h1; simp)
          · split at h
            · -- EXISTS
              cases hg : getNextValue rest with
              | error e => simp [hg] at h
              | ok kv =>
                obtain ⟨k, r⟩ := kv
                simp only [hg] at h
                injection h with h
                subst h
                rw [getNextValue_ok rest k r hg]
                refine ⟨fun k' hk => ?_, fun k' v' hk => ?_, fun k' v' hk => ?_,
                  fun p' hk => ?_, fun k' hk => ?_⟩ <;> first
                  | exact RedisCmd.noConfusion hk
                  | (injection hk with h1; subst h1; simp)
            · split at h
              · -- COMMAND
                injection h with h
                subst h
                exact ⟨fun k hk => RedisCmd.noConfusion hk, fun k v hk => RedisCmd.noConfusion hk,
                  fun k v hk => RedisCmd.noConfusion hk, fun p hk => RedisCmd.noConfusion hk,
                  fun k hk => RedisCmd.noConfusion hk⟩
              · split at h
                · exact Except.noConfusion h
                · exact Except.noConfusion h

/-- C4 counterexample: `PING`'s optional payload is taken with `.ok()`,
so a positionally consumed non-BulkString element is silently dropped
rather than an error: parsing `[BulkString "PING", Integer 0]` succeeds
as a payload-less `PING`. -/
theorem c4_counterexample :
    RedisCmd.tryFrom (.array [.bulkString ⟨ascii "PING"⟩, .integer 0]) = .ok (.ping none) :=
  rfl

/-- C4 (amended): for the commands with required arguments (`GET`,
`SET`, `APPEND`, `KEYS`, `EXISTS`) every consumed argument must be
present and a BulkString at its position, otherwise parsing returns an
error; in particular `[BulkString "GET"]` is rejected with
`Not enough arguments`.  (`PING`'s optional payload is exempt: a missing
or non-BulkString element degrades to a payload-less `PING`.) -/
theorem c4_required_arguments :
    (∀ (elems : List RespValue) (c : RedisCmd), RedisCmd.tryFrom (.array elems) = .ok c →
      (∀ k, c = .get k → elems[1]? = some (.bulkString k)) ∧
      (∀ k v, c = .set k v →
        elems[1]? = some (.bulkString k) ∧ elems[2]? = some (.bulkString v)) ∧
      (∀ k v, c = .append k v →
        elems[1]? = some (.bulkString k) ∧ elems[2]? = some (.bulkString v)) ∧
      (∀ p, c = .keys p → elems[1]? = some (.bulkString p)) ∧
      (∀ k, c = .exists k → elems[1]? = some (.bulkString k))) ∧
    RedisCmd.tryFrom (.array [.bulkString ⟨ascii "GET"⟩]) = .error "Not enough arguments" := by
  refine ⟨fun elems c h => ?_, rfl⟩
  cases elems with
  | nil => exact Except.noConfusion h
  | cons nm rest =>
    have := cmdFromName_args (toUpper ((nm.toString).getD [])) rest c h
    simpa only [List.getElem?_cons_succ] using this

/-- Witness for C4 at a concrete input: a successful `GET k` parse has
the key as BulkString in position 1, and `[BulkString "GET"]` alone is
rejected. -/
theorem c4_required_arguments_witness :
    [RespValue.bulkString ⟨ascii "GET"⟩, .bulkString ⟨ascii "k"⟩][1]? =
      some (.bulkString ⟨ascii "k"⟩) ∧
    RedisCmd.tryFrom (.array [.bulkString ⟨ascii "GET"⟩]) = .error "Not enough arguments" :=
  ⟨(c4_required_arguments.1 [.bulkString ⟨ascii "GET"⟩, .bulkString ⟨ascii "k"⟩]
      (.get ⟨ascii "k"⟩) rfl).1 ⟨ascii "k"⟩ rfl,
   c4_required_arguments.2⟩

/-! ### Claim C10: shape of decoded values -/

lemma parseBulk_shape (s : List Nat) (v : RespValue) (n : Nat)
    (h : parseBulk s = .done v n) : (∃ b, v = .bulkString b) ∨ v = .null := by
  unfold parseBulk at h
  cases hI : parseInteger s with
  | more c => simp only [hI] at h; exact PR.noConfusion h
  | fail => simp only [hI] at h; exact PR.noConfusion h
  | done len m =>
    simp only [hI] at h
    split at h
    · cases h; exact Or.inr rfl
    · split at h
      · exact PR.noConfusion h
      · split at h
        · exact PR.noConfusion h
        · split at h
          · cases h; exact Or.inl ⟨_, rfl⟩
          · exact PR.noConfusion h

lemma parseElems_shape : ∀ (k : Nat) (s : List Nat) (vs : List RespValue) (n : Nat),
    parseElems k s = .done vs n → ∀ e ∈ vs, (∃ b, e = .bulkString b) ∨ e = .null := by
  intro k
  induction k with
  | zero =>
    intro s vs n h e he
    simp only [parseElems] at h
    cases h
    simp at he
  | succ kk ih =>
    intro s vs n h e he
    cases s with
    | nil => simp only [parseElems] at h; exact PR.noConfusion h
    | cons c rest =>
      simp only [parseElems] at h
      split at h
      · cases hB : parseBulk rest with
        | more cm => simp only [hB] at h; exact PR.noConfusion h
        | fail => simp only [hB] at h; exact PR.noConfusion h
        | done v1 n1 =>
          simp only [hB] at h
          cases hE : parseElems kk (rest.drop n1) with
          | more cm => simp only [hE] at h; exact PR.noConfusion h
          | fail => simp only [hE] at h; exact PR.noConfusion h
          | done vs1 m1 =>
            simp only [hE] at h
            cases h
            rcases List.mem_cons.mp he with rfl | hm
            · exact parseBulk_shape rest _ _ hB
            · exact ih _ _ _ hE e hm
      · exact PR.noConfusion h

lemma parseArray_shape (s : List Nat) (v : RespValue) (n : Nat)
    (h : parseArray s = .done v n) : TopShape v := by
  unfold parseArray at h
  cases hI : parseInteger s with
  | more c => simp only [hI] at h; exact PR.noConfusion h
  | fail => simp only [hI] at h; exact PR.noConfusion h
  | done len m =>
    simp only [hI] at h
    split at h
    · cases h; exact Or.inl rfl
    · cases hE : parseElems len.toNat (s.drop m) with
      | more cm => simp only [hE] at h; exact PR.noConfusion h
      | fail => simp only [hE] at h; exact PR.noConfusion h
      | done vs m1 =>
        simp only [hE] at h
        cases h
        exact Or.inr ⟨vs, rfl, parseElems_shape _ _ _ _ hE⟩

lemma parseSimple_shape (s : List Nat) (v : RespValue) (n : Nat)
    (h : parseSimple s = .done v n) : TopShape v := by
  unfold parseSimple at h
  cases hL : parseLine s with
  | more c => simp only [hL] at h; exact PR.noConfusion h
  | fail => simp only [hL] at h; exact PR.noConfusion h
  | done cps m =>
    simp only [hL] at h
    cases h
    refine Or.inr ⟨_, rfl, fun e he => ?_⟩
    simp only [List.mem_map] at he
    obtain ⟨t, -, rfl⟩ := he
    exact Or.inl ⟨_, rfl⟩

lemma respParser_shape (s : List Nat) (v : RespValue) (n : Nat)
    (h : respParser s = .done v n) : TopShape v := by
  cases s with
  | nil => simp only [respParser] at h; exact PR.noConfusion h
  | cons c rest =>
    simp only [respParser] at h
    split at h
    · cases hA : parseArray rest with
      | more cm => simp only [hA] at h; exact PR.noConfusion h
      | fail => simp only [hA] at h; exact PR.noConfusion h
      | done v1 n1 =>
        simp only [hA] at h
        cases h
        exact parseArray_shape rest _ _ hA
    · exact parseSimple_shape _ _ _ h

/-- C10: every value the decoder returns is `Null` or an array whose
elements are all bulk strings or `Null` — never a top-level simple
string, error, integer or bulk string, and never a nested array. -/
theorem c10_decoder_image (st buf : List Nat) (v : RespValue) (n : Nat) (st' : List Nat)
    (h : RespCodec.decode st buf = .ok (some v, n, st')) : TopShape v := by
  unfold RespCodec.decode at h
  cases hP : respParser (st ++ buf) with
  | fail =>
    simp only [hP] at h
    cases hU : utf8Decode buf with
    | some s => simp only [hU] at h; exact RespCodec.DecodeResult.noConfusion h
    | none => simp only [hU] at h; exact RespCodec.DecodeResult.noConfusion h
  | done v1 n1 =>
    simp only [hP] at h
    simp only [RespCodec.DecodeResult.ok.injEq, Prod.mk.injEq, Option.some.injEq] at h
    obtain ⟨rfl, -⟩ := h
    exact respParser_shape _ _ _ hP
  | more c =>
    simp only [hP] at h
    simp only [RespCodec.DecodeResult.ok.injEq, Prod.mk.injEq] at h
    exact Option.noConfusion h.1

/-- Witness for C10 at a concrete input: the decode of `PING\r\n` has
the claimed shape. -/
theorem c10_decoder_image_witness : TopShape (.array [.bulkString ⟨ascii "PING"⟩]) :=
  c10_decoder_image [] (ascii "PING\r\n") (.array [.bulkString ⟨ascii "PING"⟩]) 6 [] rfl

/-! ### Incremental parsing: list helpers -/

lemma takeAppLe {α : Type} (n : Nat) (A B : List α) (h : n ≤ A.length) :
    (A ++ B).take n = A.take n := by
  rw [List.take_append_eq_append_take, Nat.sub_eq_zero_of_le h, List.take_zero,
    List.append_nil]

lemma dropAppLe {α : Type} (n : Nat) (A B : List α) (h : n ≤ A.length) :
    (A ++ B).drop n = A.drop n ++ B := by
  rw [List.drop_append_eq_append_drop, Nat.sub_eq_zero_of_le h, List.drop_zero]

/-! ### Incremental parsing: the CRLF scan -/

lemma findCRLF_bound : ∀ (s : List Nat) (i : Nat), findCRLF s = some i → i + 2 ≤ s.length := by
  intro s
  induction s with
  | nil => intro i h; simp [findCRLF] at h
  | cons c1 r ih =>
    intro i h
    cases r with
    | nil => simp [findCRLF] at h
    | cons c2 r2 =>
      by_cases hc : (c1 = 13 && c2 = 10) = true
      · simp only [findCRLF, hc, if_true] at h
        cases h
        simp only [List.length_cons]
        omega
      · simp only [findCRLF, hc, if_false] at h
        cases hf : findCRLF (c2 :: r2) with
        | none => rw [hf] at h; exact Option.noConfusion h
        | some j =>
          rw [hf] at h
          simp only [Option.map_some'] at h
          cases h
          have := ih j hf
          simp only [List.length_cons] at this ⊢
          omega

lemma findCRLF_app_some : ∀ (s t : List Nat) (i : Nat),
    findCRLF s = some i → findCRLF (s ++ t) = some i := by
  intro s
  induction s with
  | nil => intro t i h; simp [findCRLF] at h
  | cons c1 r ih =>
    intro t i h
    cases r with
    | nil => simp [findCRLF] at h
    | cons c2 r2 =>
      by_cases hc : (c1 = 13 && c2 = 10) = true
      · simp only [findCRLF, hc, if_true] at h
        cases h
        simp only [List.cons_append, findCRLF, hc, if_true]
      · simp only [findCRLF, hc, if_false] at h
        cases hf : findCRLF (c2 :: r2) with
        | none => rw [hf] at h; exact Option.noConfusion h
        | some j =>
          rw [hf] at h
          simp only [Option.map_some'] at h
          cases h
          have h2 := ih t j hf
          simp only [List.cons_append] at h2 ⊢
          simp [findCRLF, hc, h2]

/-! ### Incremental parsing: `line()` -/

lemma parseLine_done_ext (s t : List Nat) (cps : List Nat) (n : Nat)
    (h : parseLine s = .done cps n) :
    2 ≤ n ∧ n ≤ s.length ∧ parseLine (s ++ t) = .done cps n := by
  unfold parseLine at h ⊢
  cases hf : findCRLF s with
  | none => rw [hf] at h; exact PR.noConfusion h
  | some i =>
    rw [hf] at h
    have hb := findCRLF_bound s i hf
    cases hu : utf8Decode (s.take i) with
    | none => simp only [hu] at h; exact PR.noConfusion h
    | some cps' =>
      simp only [hu] at h
      cases h
      refine ⟨by omega, by omega, ?_⟩
      simp only [findCRLF_app_some s t i hf, takeAppLe i s t (by omega), hu]

lemma parseLine_fail_ext (s t : List Nat) (h : parseLine s = .fail) :
    parseLine (s ++ t) = .fail := by
  unfold parseLine at h ⊢
  cases hf : findCRLF s with
  | none => rw [hf] at h; exact PR.noConfusion h
  | some i =>
    rw [hf] at h
    have hb := findCRLF_bound s i hf
    cases hu : utf8Decode (s.take i) with
    | none => simp only [findCRLF_app_some s t i hf, takeAppLe i s t (by omega), hu]
    | some cps' => simp only [hu] at h; exact PR.noConfusion h

lemma parseLine_more (s : List Nat) (c : Nat) (h : parseLine s = .more c) : c = 0 := by
  unfold parseLine at h
  cases hf : findCRLF s with
  | none => rw [hf] at h; cases h; rfl
  | some i =>
    rw [hf] at h
    cases hu : utf8Decode (s.take i) with
    | none => simp only [hu] at h; exact PR.noConfusion h
    | some cps => simp only [hu] at h; exact PR.noConfusion h

/-! ### Incremental parsing: `integer()` -/

lemma parseInteger_done_ext (s t : List Nat) (v : Int) (n : Nat)
    (h : parseInteger s = .done v n) :
    2 ≤ n ∧ n ≤ s.length ∧ parseInteger (s ++ t) = .done v n := by
  unfold parseInteger at h ⊢
  cases hL : parseLine s with
  | more c => rw [hL] at h; exact PR.noConfusion h
  | fail => rw [hL] at h; exact PR.noConfusion h
  | done cps m =>
    rw [hL] at h
    obtain ⟨h2, hle, hext⟩ := parseLine_done_ext s t cps m hL
    cases hI : parseI64 (trimWS cps) with
    | none => simp only [hI] at h; exact PR.noConfusion h
    | some v' =>
      simp only [hI] at h
      cases h
      exact ⟨h2, hle, by rw [hext]; simp only [hI]⟩

lemma parseInteger_fail_ext (s t : List Nat) (h : parseInteger s = .fail) :
    parseInteger (s ++ t) = .fail := by
  unfold parseInteger at h ⊢
  cases hL : parseLine s with
  | more c => rw [hL] at h; exact PR.noConfusion h
  | fail => rw [parseLine_fail_ext s t hL]
  | done cps m =>
    rw [hL] at h
    obtain ⟨-, -, hext⟩ := parseLine_done_ext s t cps m hL
    cases hI : parseI64 (trimWS cps) with
    | none => rw [hext]; simp only [hI]
    | some v' => simp only [hI] at h; exact PR.noConfusion h

lemma parseInteger_more (s : List Nat) (c : Nat) (h : parseInteger s = .more c) : c = 0 := by
  unfold parseInteger at h
  cases hL : parseLine s with
  | more c' =>
    rw [hL] at h
    cases h
    exact parseLine_more s _ hL
  | fail => rw [hL] at h; exact PR.noConfusion h
  | done cps m =>
    rw [hL] at h
    cases hI : parseI64 (trimWS cps) with
    | none => simp only [hI] at h; exact PR.noConfusion h
    | some v => simp only [hI] at h; exact PR.noConfusion h

/-! ### Incremental parsing: `bulk()` -/

lemma parseBulk_after_int (u : List Nat) (len : Int) (n : Nat)
    (hI : parseInteger u = .done len n) (hneg : ¬len < 0) :
    parseBulk u =
      if (u.drop n).length < len.toNat then .more n
      else if ((u.drop n).drop len.toNat).length < 2 then .more (n + len.toNat)
      else if ((u.drop n).drop len.toNat).take 2 = [13, 10] then
        .done (.bulkString ⟨(u.drop n).take len.toNat⟩) (n + len.toNat + 2)
      else .fail := by
  unfold parseBulk
  simp only [hI, if_neg hneg]

lemma parseBulk_done_ext (s t : List Nat) (v : RespValue) (n' : Nat)
    (h : parseBulk s = .done v n') :
    2 ≤ n' ∧ n' ≤ s.length ∧ parseBulk (s ++ t) = .done v n' := by
  unfold parseBulk at h
  cases hI : parseInteger s with
  | more c => simp only [hI] at h; exact PR.noConfusion h
  | fail => simp only [hI] at h; exact PR.noConfusion h
  | done len n =>
    simp only [hI] at h
    obtain ⟨h2n, hn, hIext⟩ := parseInteger_done_ext s t len n hI
    have hd : (s ++ t).drop n = s.drop n ++ t := dropAppLe n s t hn
    have e1 : (s.drop n).length = s.length - n := List.length_drop n s
    have e2 : ((s.drop n).drop len.toNat).length = (s.drop n).length - len.toNat :=
      List.length_drop _ _
    by_cases hneg : len < 0
    · rw [if_pos hneg] at h
      cases h
      refine ⟨h2n, hn, ?_⟩
      unfold parseBulk
      simp only [hIext, if_pos hneg]
    · rw [if_neg hneg] at h
      rw [parseBulk_after_int (s ++ t) len n hIext hneg, hd]
      by_cases hshort : (s.drop n).length < len.toNat
      · rw [if_pos hshort] at h; exact PR.noConfusion h
      · rw [if_neg hshort] at h
        have hshort' : ¬(s.drop n ++ t).length < len.toNat := by
          simp only [List.length_append]; omega
        rw [if_neg hshort', dropAppLe len.toNat (s.drop n) t (by omega)]
        by_cases hl2 : ((s.drop n).drop len.toNat).length < 2
        · rw [if_pos hl2] at h; exact PR.noConfusion h
        · rw [if_neg hl2] at h
          have hl2' : ¬((s.drop n).drop len.toNat ++ t).length < 2 := by
            simp only [List.length_append]; omega
          rw [if_neg hl2', takeAppLe 2 _ t (by omega),
            takeAppLe len.toNat (s.drop n) t (by omega)]
          by_cases hcrlf : ((s.drop n).drop len.toNat).take 2 = [13, 10]
          · rw [if_pos hcrlf] at h
            rw [if_pos hcrlf]
            cases h
            exact ⟨by omega, by omega, rfl⟩
          · rw [if_neg hcrlf] at h; exact PR.noConfusion h

lemma parseBulk_fail_ext (s t : List Nat) (h : parseBulk s = .fail) :
    parseBulk (s ++ t) = .fail := by
  unfold parseBulk at h
  cases hI : parseInteger s with
  | more c => simp only [hI] at h; exact PR.noConfusion h
  | fail =>
    unfold parseBulk
    simp only [parseInteger_fail_ext s t hI]
  | done len n =>
    simp only [hI] at h
    obtain ⟨h2n, hn, hIext⟩ := parseInteger_done_ext s t len n hI
    have hd : (s ++ t).drop n = s.drop n ++ t := dropAppLe n s t hn
    by_cases hneg : len < 0
    · rw [if_pos hneg] at h; exact PR.noConfusion h
    · rw [if_neg hneg] at h
      rw [parseBulk_after_int (s ++ t) len n hIext hneg, hd]
      by_cases hshort : (s.drop n).length < len.toNat
      · rw [if_pos hshort] at h; exact PR.noConfusion h
      · rw [if_neg hshort] at h
        have hshort' : ¬(s.drop n ++ t).length < len.toNat := by
          simp only [List.length_append]; omega
        rw [if_neg hshort', dropAppLe len.toNat (s.drop n) t (by omega)]
        by_cases hl2 : ((s.drop n).drop len.toNat).length < 2
        · rw [if_pos hl2] at h; exact PR.noConfusion h
        · rw [if_neg hl2] at h
          have hl2' : ¬((s.drop n).drop len.toNat ++ t).length < 2 := by
            simp only [List.length_append]; omega
          rw [if_neg hl2', takeAppLe 2 _ t (by omega)]
          by_cases hcrlf : ((s.drop n).drop len.toNat).take 2 = [13, 10]
          · rw [if_pos hcrlf] at h; exact PR.noConfusion h
          · rw [if_neg hcrlf] at h
            rw [if_neg hcrlf]

lemma parseBulk_more_le (s : List Nat) (c : Nat) (h : parseBulk s = .more c) :
    c ≤ s.length := by
  unfold parseBulk at h
  cases hI : parseInteger s with
  | more cI =>
    simp only [hI] at h
    injection h with hcn
    subst hcn
    have := parseInteger_more s cI hI
    omega
  | fail => simp only [hI] at h; exact PR.noConfusion h
  | done len n =>
    simp only [hI] at h
    obtain ⟨h2n, hn, -⟩ := parseInteger_done_ext s [] len n hI
    have e1 : (s.drop n).length = s.length - n := List.length_drop n s
    by_cases hneg : len < 0
    · rw [if_pos hneg] at h; exact PR.noConfusion h
    · rw [if_neg hneg] at h
      by_cases hshort : (s.drop n).length < len.toNat
      · rw [if_pos hshort] at h; cases h; omega
      · rw [if_neg hshort] at h
        by_cases hl2 : ((s.drop n).drop len.toNat).length < 2
        · rw [if_pos hl2] at h; cases h; omega
        · rw [if_neg hl2] at h
          by_cases hcrlf : ((s.drop n).drop len.toNat).take 2 = [13, 10]
          · rw [if_pos hcrlf] at h; exact PR.noConfusion h
          · rw [if_neg hcrlf] at h; exact PR.noConfusion h

lemma parseBulk_more_ext (s t : List Nat) (c : Nat) (h : parseBulk s = .more c) :
    (∀ c', parseBulk (s ++ t) = .more c' → c ≤ c') ∧
    (∀ v n, parseBulk (s ++ t) = .done v n → c < n) := by
  unfold parseBulk at h
  cases hI : parseInteger s with
  | fail => simp only [hI] at h; exact PR.noConfusion h
  | more cI =>
    simp only [hI] at h
    injection h with hcn
    subst hcn
    have hz : cI = 0 := parseInteger_more s cI hI
    subst hz
    exact ⟨fun c' _ => Nat.zero_le c',
      fun v n hdone => by have := (parseBulk_done_ext (s ++ t) [] v n hdone).1; omega⟩
  | done len n =>
    simp only [hI] at h
    obtain ⟨h2n, hn, hIext⟩ := parseInteger_done_ext s t len n hI
    have hd : (s ++ t).drop n = s.drop n ++ t := dropAppLe n s t hn
    have e1 : (s.drop n).length = s.length - n := List.length_drop n s
    have e2 : ((s.drop n).drop len.toNat).length = (s.drop n).length - len.toNat :=
      List.length_drop _ _
    by_cases hneg : len < 0
    · rw [if_pos hneg] at h; exact PR.noConfusion h
    · rw [if_neg hneg] at h
      have hchar := parseBulk_after_int (s ++ t) len n hIext hneg
      rw [hd] at hchar
      by_cases hshort : (s.drop n).length < len.toNat
      · rw [if_pos hshort] at h
        injection h with hcn
        subst hcn
        constructor
        · intro c' h'
          rw [hchar] at h'
          by_cases hs2 : (s.drop n ++ t).length < len.toNat
          · rw [if_pos hs2] at h'; injection h' with hcn'; omega
          · rw [if_neg hs2] at h'
            by_cases hl2 : ((s.drop n ++ t).drop len.toNat).length < 2
            · rw [if_pos hl2] at h'; injection h' with hcn'; omega
            · rw [if_neg hl2] at h'
              by_cases hcrlf : ((s.drop n ++ t).drop len.toNat).take 2 = [13, 10]
              · rw [if_pos hcrlf] at h'; exact PR.noConfusion h'
              · rw [if_neg hcrlf] at h'; exact PR.noConfusion h'
        · intro v nn h'
          rw [hchar] at h'
          by_cases hs2 : (s.drop n ++ t).length < len.toNat
          · rw [if_pos hs2] at h'; exact PR.noConfusion h'
          · rw [if_neg hs2] at h'
            by_cases hl2 : ((s.drop n ++ t).drop len.toNat).length < 2
            · rw [if_pos hl2] at h'; exact PR.noConfusion h'
            · rw [if_neg hl2] at h'
              by_cases hcrlf : ((s.drop n ++ t).drop len.toNat).take 2 = [13, 10]
              · rw [if_pos hcrlf] at h'
                injection h' with hv hnn
                omega
              · rw [if_neg hcrlf] at h'; exact PR.noConfusion h'
      · rw [if_neg hshort] at h
        by_cases hl2 : ((s.drop n).drop len.toNat).length < 2
        · rw [if_pos hl2] at h
          injection h with hcn
          subst hcn
          have hshort' : ¬(s.drop n ++ t).length < len.toNat := by
            simp only [List.length_append]; omega
          have hd2 : (s.drop n ++ t).drop len.toNat = (s.drop n).drop len.toNat ++ t :=
            dropAppLe len.toNat (s.drop n) t (by omega)
          constructor
          · intro c' h'
            rw [hchar, if_neg hshort', hd2] at h'
            by_cases hl2' : ((s.drop n).drop len.toNat ++ t).length < 2
            · rw [if_pos hl2'] at h'; injection h' with hcn'; omega
            · rw [if_neg hl2'] at h'
              by_cases hcrlf : ((s.drop n).drop len.toNat ++ t).take 2 = [13, 10]
              · rw [if_pos hcrlf] at h'; exact PR.noConfusion h'
              · rw [if_neg hcrlf] at h'; exact PR.noConfusion h'
          · intro v nn h'
            rw [hchar, if_neg hshort', hd2] at h'
            by_cases hl2' : ((s.drop n).drop len.toNat ++ t).length < 2
            · rw [if_pos hl2'] at h'; exact PR.noConfusion h'
            · rw [if_neg hl2'] at h'
              by_cases hcrlf : ((s.drop n).drop len.toNat ++ t).take 2 = [13, 10]
              · rw [if_pos hcrlf] at h'
                injection h' with hv hnn
                omega
              · rw [if_neg hcrlf] at h'; exact PR.noConfusion h'
        · rw [if_neg hl2] at h
          by_cases hcrlf : ((s.drop n).drop len.toNat).take 2 = [13, 10]
          · rw [if_pos hcrlf] at h; exact PR.noConfusion h
          · rw [if_neg hcrlf] at h; exact PR.noConfusion h

/-! ### Incremental parsing: the element-count loop -/

lemma parseElems_done_ext : ∀ (k : Nat) (s t : List Nat) (vs : List RespValue) (n : Nat),
    parseElems k s = .done vs n → n ≤ s.length ∧ parseElems k (s ++ t) = .done vs n := by
  intro k
  induction k with
  | zero =>
    intro s t vs n h
    simp only [parseElems] at h ⊢
    injection h with h1 h2
    subst h1
    subst h2
    exact ⟨Nat.zero_le _, rfl⟩
  | succ kk ih =>
    intro s t vs n h
    cases s with
    | nil => simp only [parseElems] at h; exact PR.noConfusion h
    | cons cb rest =>
      simp only [parseElems] at h
      by_cases hc : cb = 36
      · rw [if_pos hc] at h
        cases hB : parseBulk rest with
        | more cm => simp only [hB] at h; exact PR.noConfusion h
        | fail => simp only [hB] at h; exact PR.noConfusion h
        | done v1 n1 =>
          simp only [hB] at h
          obtain ⟨h2n1, hn1, hBext⟩ := parseBulk_done_ext rest t v1 n1 hB
          cases hE : parseElems kk (rest.drop n1) with
          | more cm => simp only [hE] at h; exact PR.noConfusion h
          | fail => simp only [hE] at h; exact PR.noConfusion h
          | done vs1 m =>
            simp only [hE] at h
            injection h with hv hn
            subst hv
            subst hn
            obtain ⟨hm, hEext⟩ := ih (rest.drop n1) t vs1 m hE
            have hlen : (rest.drop n1).length = rest.length - n1 := List.length_drop _ _
            constructor
            · simp only [List.length_cons]; omega
            · show parseElems (kk + 1) ((cb :: rest) ++ t) = _
              simp only [List.cons_append, List.append_eq, parseElems, if_pos hc, hBext]
              rw [dropAppLe n1 rest t hn1]
              simp only [hEext]
      · rw [if_neg hc] at h; exact PR.noConfusion h

lemma parseElems_fail_ext : ∀ (k : Nat) (s t : List Nat),
    parseElems k s = .fail → parseElems k (s ++ t) = .fail := by
  intro k
  induction k with
  | zero => intro s t h; simp only [parseElems] at h; exact PR.noConfusion h
  | succ kk ih =>
    intro s t h
    cases s with
    | nil => simp only [parseElems] at h; exact PR.noConfusion h
    | cons cb rest =>
      simp only [parseElems] at h
      show parseElems (kk + 1) ((cb :: rest) ++ t) = _
      simp only [List.cons_append, List.append_eq, parseElems]
      by_cases hc : cb = 36
      · rw [if_pos hc] at h
        rw [if_pos hc]
        cases hB : parseBulk rest with
        | more cm => simp only [hB] at h; exact PR.noConfusion h
        | fail => simp only [parseBulk_fail_ext rest t hB]
        | done v1 n1 =>
          simp only [hB] at h
          obtain ⟨h2n1, hn1, hBext⟩ := parseBulk_done_ext rest t v1 n1 hB
          simp only [hBext]
          rw [dropAppLe n1 rest t hn1]
          cases hE : parseElems kk (rest.drop n1) with
          | more cm => simp only [hE] at h; exact PR.noConfusion h
          | fail => simp only [ih (rest.drop n1) t hE]
          | done vs1 m =>
            simp only [hE] at h
            exact PR.noConfusion h
      · rw [if_neg hc]

lemma parseElems_more_le : ∀ (k : Nat) (s : List Nat) (c : Nat),
    parseElems k s = .more c → c ≤ s.length := by
  intro k
  induction k with
  | zero => intro s c h; simp only [parseElems] at h; exact PR.noConfusion h
  | succ kk ih =>
    intro s c h
    cases s with
    | nil =>
      simp only [parseElems] at h
      injection h with hcn
      omega
    | cons cb rest =>
      simp only [parseElems] at h
      by_cases hc : cb = 36
      · rw [if_pos hc] at h
        cases hB : parseBulk rest with
        | fail => simp only [hB] at h; exact PR.noConfusion h
        | more cm =>
          simp only [hB] at h
          injection h with hcn
          have := parseBulk_more_le rest cm hB
          simp only [List.length_cons]
          omega
        | done v1 n1 =>
          simp only [hB] at h
          obtain ⟨h2n1, hn1, -⟩ := parseBulk_done_ext rest [] v1 n1 hB
          cases hE : parseElems kk (rest.drop n1) with
          | fail => simp only [hE] at h; exact PR.noConfusion h
          | done vs1 m => simp only [hE] at h; exact PR.noConfusion h
          | more cm =>
            simp only [hE] at h
            injection h with hcn
            have := ih (rest.drop n1) cm hE
            have hlen : (rest.drop n1).length = rest.length - n1 := List.length_drop _ _
            simp only [List.length_cons]
            omega
      · rw [if_neg hc] at h; exact PR.noConfusion h

lemma parseElems_done_pos : ∀ (kk : Nat) (s : List Nat) (vs : List RespValue) (n : Nat),
    parseElems (kk + 1) s = .done vs n → 1 ≤ n := by
  intro kk s vs n h
  cases s with
  | nil => simp only [parseElems] at h; exact PR.noConfusion h
  | cons cb rest =>
    simp only [parseElems] at h
    by_cases hc : cb = 36
    · rw [if_pos hc] at h
      cases hB : parseBulk rest with
      | more cm => simp only [hB] at h; exact PR.noConfusion h
      | fail => simp only [hB] at h; exact PR.noConfusion h
      | done v1 n1 =>
        simp only [hB] at h
        cases hE : parseElems kk (rest.drop n1) with
        | more cm => simp only [hE] at h; exact PR.noConfusion h
        | fail => simp only [hE] at h; exact PR.noConfusion h
        | done vs1 m =>
          simp only [hE] at h
          injection h with hv hn
          omega
    · rw [if_neg hc] at h; exact PR.noConfusion h

lemma parseElems_more_ext : ∀ (k : Nat) (s t : List Nat) (c : Nat),
    parseElems k s = .more c →
    (∀ c', parseElems k (s ++ t) = .more c' → c ≤ c') ∧
    (∀ vs n, parseElems k (s ++ t) = .done vs n → c < n) := by
  intro k
  induction k with
  | zero => intro s t c h; simp only [parseElems] at h; exact PR.noConfusion h
  | succ kk ih =>
    intro s t c h
    cases s with
    | nil =>
      simp only [parseElems] at h
      injection h with hcn
      subst hcn
      constructor
      · intro c' _; exact Nat.zero_le c'
      · intro vs n h'
        have := parseElems_done_pos kk _ vs n h'
        omega
    | cons cb rest =>
      simp only [parseElems] at h
      by_cases hc : cb = 36
      · rw [if_pos hc] at h
        cases hB : parseBulk rest with
        | fail => simp only [hB] at h; exact PR.noConfusion h
        | more cm =>
          simp only [hB] at h
          injection h with hcn
          subst hcn
          obtain ⟨hmono, hstrict⟩ := parseBulk_more_ext rest t cm hB
          constructor
          · intro c' h'
            simp only [List.cons_append, List.append_eq, parseElems, if_pos hc] at h'
            cases hB' : parseBulk (rest ++ t) with
            | fail => simp only [hB'] at h'; exact PR.noConfusion h'
            | more cm' =>
              simp only [hB'] at h'
              injection h' with hcn'
              have := hmono cm' hB'
              omega
            | done v1 n1 =>
              simp only [hB'] at h'
              have hlt := hstrict v1 n1 hB'
              cases hE' : parseElems kk ((rest ++ t).drop n1) with
              | fail => simp only [hE'] at h'; exact PR.noConfusion h'
              | more cmr =>
                simp only [hE'] at h'
                injection h' with hcn'
                omega
              | done vs1 m =>
                simp only [hE'] at h'
                exact PR.noConfusion h'
          · intro vs n h'
            simp only [List.cons_append, List.append_eq, parseElems, if_pos hc] at h'
            cases hB' : parseBulk (rest ++ t) with
            | fail => simp only [hB'] at h'; exact PR.noConfusion h'
            | more cm' => simp only [hB'] at h'; exact PR.noConfusion h'
            | done v1 n1 =>
              simp only [hB'] at h'
              have hlt := hstrict v1 n1 hB'
              cases hE' : parseElems kk ((rest ++ t).drop n1) with
              | fail => simp only [hE'] at h'; exact PR.noConfusion h'
              | more cmr => simp only [hE'] at h'; exact PR.noConfusion h'
              | done vs1 m =>
                simp only [hE'] at h'
                injection h' with hv hn
                omega
        | done v1 n1 =>
          simp only [hB] at h
          obtain ⟨h2n1, hn1, hBext⟩ := parseBulk_done_ext rest t v1 n1 hB
          have hd : (rest ++ t).drop n1 = rest.drop n1 ++ t := dropAppLe n1 rest t hn1
          cases hE : parseElems kk (rest.drop n1) with
          | fail => simp only [hE] at h; exact PR.noConfusion h
          | done vs1 m => simp only [hE] at h; exact PR.noConfusion h
          | more cmr =>
            simp only [hE] at h
            injection h with hcn
            subst hcn
            obtain ⟨hmono, hstrict⟩ := ih (rest.drop n1) t cmr hE
            constructor
            · intro c' h'
              simp only [List.cons_append, List.append_eq, parseElems, if_pos hc, hBext, hd] at h'
              cases hE' : parseElems kk (rest.drop n1 ++ t) with
              | fail => simp only [hE'] at h'; exact PR.noConfusion h'
              | more cmr' =>
                simp only [hE'] at h'
                injection h' with hcn'
                have := hmono cmr' hE'
                omega
              | done vs1 m =>
                simp only [hE'] at h'
                exact PR.noConfusion h'
            · intro vs n h'
              simp only [List.cons_append, List.append_eq, parseElems, if_pos hc, hBext, hd] at h'
              cases hE' : parseElems kk (rest.drop n1 ++ t) with
              | fail => simp only [hE'] at h'; exact PR.noConfusion h'
              | more cmr' => simp only [hE'] at h'; exact PR.noConfusion h'
              | done vs1 m =>
                simp only [hE'] at h'
                injection h' with hv hn
                have := hstrict vs1 m hE'
                omega
      · rw [if_neg hc] at h; exact PR.noConfusion h

/-! ### Incremental parsing: `array()` -/

lemma parseArray_done_ext (s t : List Nat) (v : RespValue) (n' : Nat)
    (h : parseArray s = .done v n') :
    2 ≤ n' ∧ n' ≤ s.length ∧ parseArray (s ++ t) = .done v n' := by
  unfold parseArray at h
  cases hI : parseInteger s with
  | more c => simp only [hI] at h; exact PR.noConfusion h
  | fail => simp only [hI] at h; exact PR.noConfusion h
  | done len n =>
    simp only [hI] at h
    obtain ⟨h2n, hn, hIext⟩ := parseInteger_done_ext s t len n hI
    have hd : (s ++ t).drop n = s.drop n ++ t := dropAppLe n s t hn
    by_cases hneg : len < 0
    · rw [if_pos hneg] at h
      cases h
      refine ⟨h2n, hn, ?_⟩
      unfold parseArray
      simp only [hIext, if_pos hneg]
    · rw [if_neg hneg] at h
      cases hE : parseElems len.toNat (s.drop n) with
      | more c => simp only [hE] at h; exact PR.noConfusion h
      | fail => simp only [hE] at h; exact PR.noConfusion h
      | done vs m =>
        simp only [hE] at h
        injection h with hv hn'
        subst hv
        subst hn'
        obtain ⟨hm, hEext⟩ := parseElems_done_ext len.toNat (s.drop n) t vs m hE
        have hlen : (s.drop n).length = s.length - n := List.length_drop _ _
        refine ⟨by omega, by omega, ?_⟩
        unfold parseArray
        simp only [hIext, if_neg hneg, hd, hEext]

lemma parseArray_fail_ext (s t : List Nat) (h : parseArray s = .fail) :
    parseArray (s ++ t) = .fail := by
  unfold parseArray at h
  cases hI : parseInteger s with
  | more c => simp only [hI] at h; exact PR.noConfusion h
  | fail =>
    unfold parseArray
    simp only [parseInteger_fail_ext s t hI]
  | done len n =>
    simp only [hI] at h
    obtain ⟨h2n, hn, hIext⟩ := parseInteger_done_ext s t len n hI
    have hd : (s ++ t).drop n = s.drop n ++ t := dropAppLe n s t hn
    by_cases hneg : len < 0
    · rw [if_pos hneg] at h; exact PR.noConfusion h
    · rw [if_neg hneg] at h
      unfold parseArray
      simp only [hIext, if_neg hneg, hd]
      cases hE : parseElems len.toNat (s.drop n) with
      | more c => simp only [hE] at h; exact PR.noConfusion h
      | fail => simp only [parseElems_fail_ext len.toNat (s.drop n) t hE]
      | done vs m => simp only [hE] at h; exact PR.noConfusion h

lemma parseArray_more_le (s : List Nat) (c : Nat) (h : parseArray s = .more c) :
    c ≤ s.length := by
  unfold parseArray at h
  cases hI : parseInteger s with
  | more cI =>
    simp only [hI] at h
    injection h with hcn
    have := parseInteger_more s cI hI
    omega
  | fail => simp only [hI] at h; exact PR.noConfusion h
  | done len n =>
    simp only [hI] at h
    obtain ⟨h2n, hn, -⟩ := parseInteger_done_ext s [] len n hI
    by_cases hneg : len < 0
    · rw [if_pos hneg] at h; exact PR.noConfusion h
    · rw [if_neg hneg] at h
      cases hE : parseElems len.toNat (s.drop n) with
      | fail => simp only [hE] at h; exact PR.noConfusion h
      | done vs m => simp only [hE] at h; exact PR.noConfusion h
      | more cE =>
        simp only [hE] at h
        injection h with hcn
        have := parseElems_more_le len.toNat (s.drop n) cE hE
        have hlen : (s.drop n).length = s.length - n := List.length_drop _ _
        omega

lemma parseArray_more_ext (s t : List Nat) (c : Nat) (h : parseArray s = .more c) :
    (∀ c', parseArray (s ++ t) = .more c' → c ≤ c') ∧
    (∀ v n, parseArray (s ++ t) = .done v n → c < n) := by
  unfold parseArray at h
  cases hI : parseInteger s with
  | fail => simp only [hI] at h; exact PR.noConfusion h
  | more cI =>
    simp only [hI] at h
    injection h with hcn
    subst hcn
    have hz : cI = 0 := parseInteger_more s cI hI
    subst hz
    exact ⟨fun c' _ => Nat.zero_le c',
      fun v n hdone => by have := (parseArray_done_ext (s ++ t) [] v n hdone).1; omega⟩
  | done len n =>
    simp only [hI] at h
    obtain ⟨h2n, hn, hIext⟩ := parseInteger_done_ext s t len n hI
    have hd : (s ++ t).drop n = s.drop n ++ t := dropAppLe n s t hn
    by_cases hneg : len < 0
    · rw [if_pos hneg] at h; exact PR.noConfusion h
    · rw [if_neg hneg] at h
      cases hE : parseElems len.toNat (s.drop n) with
      | fail => simp only [hE] at h; exact PR.noConfusion h
      | done vs m => simp only [hE] at h; exact PR.noConfusion h
      | more cE =>
        simp only [hE] at h
        injection h with hcn
        subst hcn
        obtain ⟨hmono, hstrict⟩ := parseElems_more_ext len.toNat (s.drop n) t cE hE
        constructor
        · intro c' h'
          unfold parseArray at h'
          simp only [hIext, if_neg hneg, hd] at h'
          cases hE' : parseElems len.toNat (s.drop n ++ t) with
          | fail => simp only [hE'] at h'; exact PR.noConfusion h'
          | done vs m => simp only [hE'] at h'; exact PR.noConfusion h'
          | more cE' =>
            simp only [hE'] at h'
            injection h' with hcn'
            have := hmono cE' hE'
            omega
        · intro v n' h'
          unfold parseArray at h'
          simp only [hIext, if_neg hneg, hd] at h'
          cases hE' : parseElems len.toNat (s.drop n ++ t) with
          | fail => simp only [hE'] at h'; exact PR.noConfusion h'
          | more cE' => simp only [hE'] at h'; exact PR.noConfusion h'
          | done vs m =>
            simp only [hE'] at h'
            injection h' with hv hn'
            have := hstrict vs m hE'
            omega

/-! ### Incremental parsing: the inline command -/

lemma parseSimple_done_ext (s t : List Nat) (v : RespValue) (n : Nat)
    (h : parseSimple s = .done v n) :
    2 ≤ n ∧ n ≤ s.length ∧ parseSimple (s ++ t) = .done v n := by
  unfold parseSimple at h
  cases hL : parseLine s with
  | more c => simp only [hL] at h; exact PR.noConfusion h
  | fail => simp only [hL] at h; exact PR.noConfusion h
  | done cps m =>
    simp only [hL] at h
    injection h with hv hn
    subst hv
    subst hn
    obtain ⟨h2, hle, hext⟩ := parseLine_done_ext s t cps m hL
    refine ⟨h2, hle, ?_⟩
    unfold parseSimple
    simp only [hext]

lemma parseSimple_fail_ext (s t : List Nat) (h : parseSimple s = .fail) :
    parseSimple (s ++ t) = .fail := by
  unfold parseSimple at h
  cases hL : parseLine s with
  | more c => simp only [hL] at h; exact PR.noConfusion h
  | fail =>
    unfold parseSimple
    simp only [parseLine_fail_ext s t hL]
  | done cps m => simp only [hL] at h; exact PR.noConfusion h

lemma parseSimple_more (s : List Nat) (c : Nat) (h : parseSimple s = .more c) : c = 0 := by
  unfold parseSimple at h
  cases hL : parseLine s with
  | more c' =>
    simp only [hL] at h
    injection h with hcn
    subst hcn
    exact parseLine_more s c' hL
  | fail => simp only [hL] at h; exact PR.noConfusion h
  | done cps m => simp only [hL] at h; exact PR.noConfusion h

/-! ### Incremental parsing: the top-level parser -/

lemma respParser_done_ext (s t : List Nat) (v : RespValue) (n : Nat)
    (h : respParser s = .done v n) :
    1 ≤ n ∧ n ≤ s.length ∧ respParser (s ++ t) = .done v n := by
  cases s with
  | nil => simp only [respParser] at h; exact PR.noConfusion h
  | cons c rest =>
    simp only [respParser] at h
    by_cases h42 : c = 42
    · rw [if_pos h42] at h
      cases hA : parseArray rest with
      | more cm => simp only [hA] at h; exact PR.noConfusion h
      | fail => simp only [hA] at h; exact PR.noConfusion h
      | done v1 n1 =>
        simp only [hA] at h
        injection h with hv hn
        subst hv
        subst hn
        obtain ⟨h2, hle, hext⟩ := parseArray_done_ext rest t v1 n1 hA
        refine ⟨by omega, by simp only [List.length_cons]; omega, ?_⟩
        show respParser (c :: (rest ++ t)) = _
        simp only [respParser, if_pos h42, hext]
    · rw [if_neg h42] at h
      obtain ⟨h2, hle, hext⟩ := parseSimple_done_ext (c :: rest) t v n h
      refine ⟨by omega, hle, ?_⟩
      show respParser (c :: (rest ++ t)) = _
      simp only [respParser, if_neg h42]
      exact hext

lemma respParser_fail_ext (s t : List Nat) (h : respParser s = .fail) :
    respParser (s ++ t) = .fail := by
  cases s with
  | nil => simp only [respParser] at h; exact PR.noConfusion h
  | cons c rest =>
    simp only [respParser] at h
    show respParser (c :: (rest ++ t)) = _
    simp only [respParser]
    by_cases h42 : c = 42
    · rw [if_pos h42] at h
      rw [if_pos h42]
      cases hA : parseArray rest with
      | more cm => simp only [hA] at h; exact PR.noConfusion h
      | fail => simp only [parseArray_fail_ext rest t hA]
      | done v1 n1 => simp only [hA] at h; exact PR.noConfusion h
    · rw [if_neg h42] at h
      rw [if_neg h42]
      exact parseSimple_fail_ext (c :: rest) t h

lemma respParser_more_le (s : List Nat) (c : Nat) (h : respParser s = .more c) :
    c ≤ s.length := by
  cases s with
  | nil =>
    simp only [respParser] at h
    injection h with hcn
    omega
  | cons cb rest =>
    simp only [respParser] at h
    by_cases h42 : cb = 42
    · rw [if_pos h42] at h
      cases hA : parseArray rest with
      | fail => simp only [hA] at h; exact PR.noConfusion h
      | done v1 n1 => simp only [hA] at h; exact PR.noConfusion h
      | more cm =>
        simp only [hA] at h
        injection h with hcn
        have := parseArray_more_le rest cm hA
        simp only [List.length_cons]
        omega
    · rw [if_neg h42] at h
      have := parseSimple_more (cb :: rest) c h
      omega

lemma respParser_more_ext (s t : List Nat) (c : Nat) (h : respParser s = .more c) :
    (∀ c', respParser (s ++ t) = .more c' → c ≤ c') ∧
    (∀ v n, respParser (s ++ t) = .done v n → c < n) := by
  cases s with
  | nil =>
    simp only [respParser] at h
    injection h with hcn
    subst hcn
    refine ⟨fun c' _ => Nat.zero_le c', fun v n h' => ?_⟩
    have := (respParser_done_ext ([] ++ t) [] v n h').1
    omega
  | cons cb rest =>
    simp only [respParser] at h
    by_cases h42 : cb = 42
    · rw [if_pos h42] at h
      cases hA : parseArray rest with
      | fail => simp only [hA] at h; exact PR.noConfusion h
      | done v1 n1 => simp only [hA] at h; exact PR.noConfusion h
      | more cm =>
        simp only [hA] at h
        injection h with hcn
        subst hcn
        obtain ⟨hmono, hstrict⟩ := parseArray_more_ext rest t cm hA
        constructor
        · intro c' h'
          rw [show (cb :: rest) ++ t = cb :: (rest ++ t) from rfl] at h'
          simp only [respParser, if_pos h42] at h'
          cases hA' : parseArray (rest ++ t) with
          | fail => simp only [hA'] at h'; exact PR.noConfusion h'
          | done v1 n1 => simp only [hA'] at h'; exact PR.noConfusion h'
          | more cm' =>
            simp only [hA'] at h'
            injection h' with hcn'
            have := hmono cm' hA'
            omega
        · intro v n h'
          rw [show (cb :: rest) ++ t = cb :: (rest ++ t) from rfl] at h'
          simp only [respParser, if_pos h42] at h'
          cases hA' : parseArray (rest ++ t) with
          | fail => simp only [hA'] at h'; exact PR.noConfusion h'
          | more cm' => simp only [hA'] at h'; exact PR.noConfusion h'
          | done v1 n1 =>
            simp only [hA'] at h'
            injection h' with hv hn
            have := hstrict v1 n1 hA'
            omega
    · rw [if_neg h42] at h
      have hz := parseSimple_more (cb :: rest) c h
      subst hz
      refine ⟨fun c' _ => Nat.zero_le c', fun v n h' => ?_⟩
      have := (respParser_done_ext ((cb :: rest) ++ t) [] v n h').1
      omega

/-! ### Claim C7: per-call decode outcomes -/

/-- C7 counterexample: feeding the complete array header `*1\r\n` alone
returns no value, yet commits (consumes) all four header bytes into the
decoder's partial state — the consumed count on a no-value return is not
zero; and the byte sequence `FF 0D 0A` (a complete inline line whose
body is not valid UTF-8) makes the real decoder panic in `map_err`'s
`str::from_utf8(src).unwrap()` instead of returning one of the three
outcomes. -/
theorem c7_counterexample :
    (RespCodec.decode [] (ascii "*1\r\n") = .ok (none, 4, ascii "*1\r\n") ∧ (4 : Nat) ≠ 0) ∧
    RespCodec.decode [] [255, 13, 10] = .panic :=
  ⟨⟨rfl, by decide⟩, rfl⟩

/-- C7 (amended): from any reachable decoder state, a decode call
produces exactly one of: no value (with `c ≥ 0` bytes consumed into the
retained partial-parse state — possibly positive), one fully-parsed
value with `N > 0` bytes consumed, a parse error (only with the
unconsumed buffer valid UTF-8), or — when the parse fails while the
unconsumed buffer is not valid UTF-8 — a panic in the error-message
formatting rather than any return. -/
theorem c7_decode_outcomes (st buf : List Nat) (h : WFState st) :
    (∃ e, RespCodec.decode st buf = .error e ∧ (utf8Decode buf).isSome) ∨
    (RespCodec.decode st buf = .panic ∧ (utf8Decode buf).isNone) ∨
    (∃ c st', RespCodec.decode st buf = .ok (none, c, st')) ∨
    (∃ v n st', RespCodec.decode st buf = .ok (some v, n, st') ∧ 0 < n) := by
  unfold RespCodec.decode
  cases hP : respParser (st ++ buf) with
  | fail =>
    cases hU : utf8Decode buf with
    | some s => exact Or.inl ⟨_, rfl, rfl⟩
    | none => exact Or.inr (Or.inl ⟨rfl, rfl⟩)
  | more c => exact Or.inr (Or.inr (Or.inl ⟨_, _, rfl⟩))
  | done v n =>
    refine Or.inr (Or.inr (Or.inr ⟨v, n - st.length, [], rfl, ?_⟩))
    rcases h with rfl | hmore
    · have := (respParser_done_ext ([] ++ buf) [] v n hP).1
      simp only [List.length_nil]
      omega
    · have := (respParser_more_ext st buf st.length hmore).2 v n hP
      omega

/-- Witness for C7 at a concrete input: a single `+` byte is a
well-formed call from the empty state. -/
theorem c7_decode_outcomes_witness :
    (∃ e, RespCodec.decode [] (ascii "+") = .error e ∧
      (utf8Decode (ascii "+")).isSome) ∨
    (RespCodec.decode [] (ascii "+") = .panic ∧ (utf8Decode (ascii "+")).isNone) ∨
    (∃ c st', RespCodec.decode [] (ascii "+") = .ok (none, c, st')) ∨
    (∃ v n st', RespCodec.decode [] (ascii "+") = .ok (some v, n, st') ∧ 0 < n) :=
  c7_decode_outcomes [] (ascii "+") (Or.inl rfl)

/-! ### Claim C1: fragmentation invariance -/

lemma decode_nil_done (s : List Nat) (v : RespValue) (n : Nat)
    (h : RespCodec.decode [] s = .ok (some v, n, [])) : respParser s = .done v n := by
  unfold RespCodec.decode at h
  simp only [List.nil_append] at h
  cases hP : respParser s with
  | fail =>
    simp only [hP] at h
    cases hU : utf8Decode s with
    | some t => simp only [hU] at h; exact RespCodec.DecodeResult.noConfusion h
    | none => simp only [hU] at h; exact RespCodec.DecodeResult.noConfusion h
  | more c => simp only [hP] at h; simp at h
  | done v' n' =>
    simp only [hP] at h
    simp only [RespCodec.DecodeResult.ok.injEq, Prod.mk.injEq, Option.some.injEq,
      List.length_nil, Nat.sub_zero] at h
    obtain ⟨rfl, rfl, -⟩ := h
    rfl

lemma runChunks_go (s : List Nat) (v : RespValue) (n : Nat)
    (hs : respParser s = .done v n) :
    ∀ (chunks : List (List Nat)) (m cm : Nat),
      m ≤ s.length →
      s.take m ++ catChunks chunks = s →
      respParser (s.take m) = .more cm →
      runChunks (s.take cm) ((s.take m).drop cm) cm chunks = some (v, n) := by
  intro chunks
  induction chunks with
  | nil =>
    intro m cm hm hcat hmore
    simp only [catChunks, List.append_nil] at hcat
    rw [hcat, hs] at hmore
    exact PR.noConfusion hmore
  | cons ch chs ih =>
    intro m cm hm hcat hmore
    have hlen_m : (s.take m).length = m := by
      rw [List.length_take]; omega
    have hcm_le : cm ≤ m := by
      have := respParser_more_le (s.take m) cm hmore
      omega
    have hcat' : (s.take m ++ ch) ++ catChunks chs = s := by
      rw [List.append_assoc]; exact hcat
    have hm'le : m + ch.length ≤ s.length := by
      have := congrArg List.length hcat'
      simp only [List.length_append, hlen_m] at this
      omega
    have htake' : s.take (m + ch.length) = s.take m ++ ch := by
      conv_lhs => rw [← hcat']
      rw [takeAppLe _ _ _ (by simp only [List.length_append, hlen_m]; omega)]
      rw [show m + ch.length = (s.take m ++ ch).length from by
        simp only [List.length_append, hlen_m]]
      exact List.take_length _
    have hcat2 : s.take (m + ch.length) ++ catChunks chs = s := by
      rw [htake']; exact hcat'
    have hstbuf : s.take cm ++ ((s.take m).drop cm ++ ch) = s.take (m + ch.length) := by
      rw [htake', ← List.append_assoc]
      congr 1
      rw [show s.take cm = (s.take m).take cm from by
        rw [List.take_take, min_eq_left hcm_le]]
      exact List.take_append_drop cm (s.take m)
    have hcmlen : (s.take cm).length = cm := by
      rw [List.length_take]; omega
    simp only [runChunks]
    cases hP' : respParser (s.take (m + ch.length)) with
    | fail =>
      exfalso
      have hext := respParser_fail_ext (s.take (m + ch.length)) (s.drop (m + ch.length)) hP'
      rw [List.take_append_drop, hs] at hext
      exact PR.noConfusion hext
    | done vd nd =>
      have hext := (respParser_done_ext (s.take (m + ch.length)) (s.drop (m + ch.length))
        vd nd hP').2.2
      rw [List.take_append_drop, hs] at hext
      injection hext with hv hn
      subst hv
      subst hn
      have hlt : cm < n := by
        have hP2 := hP'
        rw [htake'] at hP2
        exact (respParser_more_ext (s.take m) ch cm hmore).2 v n hP2
      have hdec : RespCodec.decode (s.take cm) ((s.take m).drop cm ++ ch) =
          .ok (some v, n - cm, []) := by
        unfold RespCodec.decode
        rw [hstbuf]
        simp only [hP', hcmlen]
      rw [hdec]
      show some (v, cm + (n - cm)) = some (v, n)
      rw [show cm + (n - cm) = n from by omega]
    | more c' =>
      have hge : cm ≤ c' := by
        have hP2 := hP'
        rw [htake'] at hP2
        exact (respParser_more_ext (s.take m) ch cm hmore).1 c' hP2
      have hc'le : c' ≤ m + ch.length := by
        have := respParser_more_le (s.take (m + ch.length)) c' hP'
        rw [List.length_take] at this
        omega
      have hdec : RespCodec.decode (s.take cm) ((s.take m).drop cm ++ ch) =
          .ok (none, c' - cm, s.take cm ++ ((s.take m).drop cm ++ ch).take (c' - cm)) := by
        unfold RespCodec.decode
        rw [hstbuf]
        simp only [hP', hcmlen]
      rw [hdec]
      have hX : (s.take m).drop cm ++ ch = (s.take (m + ch.length)).drop cm := by
        conv_rhs => rw [← hstbuf]
        rw [dropAppLe cm _ _ (by omega),
          show (s.take cm).drop cm = [] from List.drop_eq_nil_of_le (by omega),
          List.nil_append]
      have hstate : s.take cm ++ ((s.take m).drop cm ++ ch).take (c' - cm) = s.take c' := by
        rw [hX, show s.take cm = (s.take (m + ch.length)).take cm from by
            rw [List.take_take, min_eq_left (by omega)],
          ← List.take_add, show cm + (c' - cm) = c' from by omega,
          List.take_take, min_eq_left hc'le]
      have hbuffer : ((s.take m).drop cm ++ ch).drop (c' - cm) =
          (s.take (m + ch.length)).drop c' := by
        rw [hX, List.drop_drop]
        congr 1
        omega
      show runChunks (s.take cm ++ ((s.take m).drop cm ++ ch).take (c' - cm))
        (((s.take m).drop cm ++ ch).drop (c' - cm)) (cm + (c' - cm)) chs = some (v, n)
      rw [hstate, hbuffer, show cm + (c' - cm) = c' from by omega]
      exact ih (m + ch.length) c' hm'le hcat2 hP'

/-- C1: a byte sequence that one decode call turns into a single value
(consuming `n` bytes) yields, when split at arbitrary byte offsets into
chunks delivered across multiple decode calls — threading the decoder
state and the unconsumed buffer — the same value and the same total
consumed-byte count `n`. -/
theorem c1_fragmentation_invariance (s : List Nat) (v : RespValue) (n : Nat)
    (chunks : List (List Nat))
    (hone : RespCodec.decode [] s = .ok (some v, n, []))
    (hsplit : catChunks chunks = s) :
    runChunks [] [] 0 chunks = some (v, n) := by
  have hs : respParser s = .done v n := decode_nil_done s v n hone
  have h0 : respParser (s.take 0) = .more 0 := by rw [List.take_zero]; rfl
  have hgo := runChunks_go s v n hs chunks 0 0 (Nat.zero_le _)
    (by simpa using hsplit) h0
  simpa using hgo

/-- Witness for C1 at a concrete input: `*1\r\n$2\r\nok\r\n` delivered
in three fragments (splitting mid-header, mid-payload and
mid-terminator) decodes to the same value and total count as the
one-call decode. -/
theorem c1_fragmentation_invariance_witness :
    runChunks [] [] 0 [ascii "*1\r\n$2", ascii "\r\nok\r", ascii "\n"] =
      some (.array [.bulkString ⟨ascii "ok"⟩], 12) :=
  c1_fragmentation_invariance (ascii "*1\r\n$2\r\nok\r\n")
    (.array [.bulkString ⟨ascii "ok"⟩]) 12
    [ascii "*1\r\n$2", ascii "\r\nok\r", ascii "\n"] rfl rfl

/-! ### Round-trip: decimal digits -/

lemma natDigitsAux_foldl : ∀ (fuel n : Nat), n ≤ fuel → ∀ a,
    (natDigitsAux fuel n).foldl (fun x c => x * 10 + (c - 48)) a =
      a * 10 ^ (natDigitsAux fuel n).length + n := by
  intro fuel
  induction fuel with
  | zero =>
    intro n hn a
    have : n = 0 := by omega
    subst this
    simp [natDigitsAux]
  | succ f ih =>
    intro n hn a
    match n with
    | 0 => simp [natDigitsAux]
    | m + 1 =>
      have hdiv : (m + 1) / 10 ≤ f := by
        have := Nat.div_lt_self (Nat.succ_pos m) (by omega : 1 < 10)
        omega
      simp only [natDigitsAux, List.foldl_append, List.length_append, List.length_cons,
        List.length_nil, List.foldl_cons, List.foldl_nil]
      rw [ih ((m + 1) / 10) hdiv a]
      rw [show 48 + (m + 1) % 10 - 48 = (m + 1) % 10 from by omega]
      rw [pow_succ]
      calc (a * 10 ^ (natDigitsAux f ((m + 1) / 10)).length + (m + 1) / 10) * 10 +
            (m + 1) % 10
          = a * (10 ^ (natDigitsAux f ((m + 1) / 10)).length * 10) +
            ((m + 1) / 10 * 10 + (m + 1) % 10) := by ring
        _ = a * (10 ^ (natDigitsAux f ((m + 1) / 10)).length * 10) + (m + 1) := by
            congr 1
            omega

lemma natToBytes_ne_nil (n : Nat) : natToBytes n ≠ [] := by
  unfold natToBytes
  split
  · simp
  · rename_i hn
    cases n with
    | zero => exact absurd rfl hn
    | succ m => simp [natDigitsAux]

lemma natToBytes_val (n : Nat) : digitsToNat? (natToBytes n) = some n := by
  by_cases h0 : n = 0
  · subst h0; rfl
  · have hnb : natToBytes n = natDigitsAux n n := by
      unfold natToBytes; rw [if_neg h0]
    unfold digitsToNat?
    rw [if_neg (natToBytes_ne_nil n), if_pos (by
      rw [List.all_eq_true]
      intro c hc
      have := natToBytes_mem n c hc
      simp only [Bool.and_eq_true, decide_eq_true_eq]
      omega)]
    rw [hnb, natDigitsAux_foldl n n (Nat.le_refl n) 0]
    simp

lemma parseI64_natToBytes (n : Nat) (h : n < 2 ^ 63) :
    parseI64 (natToBytes n) = some (n : Int) := by
  cases hnb : natToBytes n with
  | nil => exact absurd hnb (natToBytes_ne_nil n)
  | cons c rest =>
    have hc : 48 ≤ c ∧ c ≤ 57 :=
      natToBytes_mem n c (by rw [hnb]; exact List.mem_cons_self c rest)
    simp only [parseI64]
    rw [if_neg (by omega), if_neg (by omega), ← hnb, natToBytes_val]
    show (if n < 2 ^ 63 then some ((n : Nat) : Int) else none) = some (n : Int)
    rw [if_pos h]

/-! ### Round-trip: header lines -/

lemma dropWhile_all_false (p : Nat → Bool) : ∀ (l : List Nat),
    (∀ c ∈ l, p c = false) → l.dropWhile p = l := by
  intro l h
  cases l with
  | nil => rfl
  | cons c r => simp [List.dropWhile_cons, h c (List.mem_cons_self c r)]

lemma trimWS_clean (l : List Nat) (h : ∀ c ∈ l, isWS c = false) : trimWS l = l := by
  unfold trimWS
  rw [dropWhile_all_false isWS l h,
    dropWhile_all_false isWS l.reverse (fun c hc => h c (List.mem_reverse.mp hc)),
    List.reverse_reverse]

lemma isWS_num (c : Nat) (h1 : 45 ≤ c) (h2 : c ≤ 57) : isWS c = false := by
  simp only [isWS, Bool.or_eq_false_iff, Bool.and_eq_false_iff, decide_eq_false_iff_not]
  omega

lemma findCRLF_clean : ∀ (A : List Nat), (∀ c ∈ A, c ≠ 13) → ∀ (B : List Nat),
    findCRLF (A ++ 13 :: 10 :: B) = some A.length := by
  intro A
  induction A with
  | nil => intro _ B; simp [findCRLF]
  | cons a A' ih =>
    intro h B
    have ha : a ≠ 13 := h a (List.mem_cons_self a A')
    cases A' with
    | nil =>
      simp only [List.nil_append, List.cons_append, findCRLF]
      rw [if_neg (by simp [ha])]
      simp [findCRLF]
    | cons a' A'' =>
      have ih' := ih (fun c hc => h c (List.mem_cons_of_mem a hc)) B
      simp only [List.cons_append] at ih' ⊢
      rw [findCRLF]
      · rw [if_neg (by simp [ha]), ih', Option.map_some']
        simp [List.length_cons]

lemma parseLine_header (A B : List Nat) (h13 : ∀ c ∈ A, c ≠ 13) (h128 : ∀ c ∈ A, c < 128) :
    parseLine (A ++ 13 :: 10 :: B) = .done A (A.length + 2) := by
  have htake : (A ++ 13 :: 10 :: B).take A.length = A := by
    rw [takeAppLe _ _ _ (Nat.le_refl _), List.take_length]
  unfold parseLine
  rw [findCRLF_clean A h13 B]
  simp only [htake, utf8Decode_ascii A h128]

lemma parseInteger_header (A B : List Nat) (h13 : ∀ c ∈ A, c ≠ 13) (h128 : ∀ c ∈ A, c < 128)
    (hWS : ∀ c ∈ A, isWS c = false) (v : Int) (hI : parseI64 A = some v) :
    parseInteger (A ++ 13 :: 10 :: B) = .done v (A.length + 2) := by
  unfold parseInteger
  rw [parseLine_header A B h13 h128]
  simp only [trimWS_clean A hWS, hI]

lemma parseBulk_encode_bulk (b : List Nat) (hb : b.length < 2 ^ 63) (tail : List Nat) :
    parseBulk (natToBytes b.length ++ 13 :: 10 :: (b ++ 13 :: 10 :: tail)) =
      .done (.bulkString ⟨b⟩) ((natToBytes b.length).length + 2 + b.length + 2) := by
  have hmemA := natToBytes_mem b.length
  have hI := parseInteger_header (natToBytes b.length) (b ++ 13 :: 10 :: tail)
    (fun c hc => by have := hmemA c hc; omega)
    (fun c hc => by have := hmemA c hc; omega)
    (fun c hc => by have := hmemA c hc; exact isWS_num c (by omega) (by omega))
    (b.length : Int) (parseI64_natToBytes b.length hb)
  rw [parseBulk_after_int _ _ _ hI (by omega)]
  rw [show ((b.length : Nat) : Int).toNat = b.length from by simp]
  have hdropn : (natToBytes b.length ++ 13 :: 10 :: (b ++ 13 :: 10 :: tail)).drop
      ((natToBytes b.length).length + 2) = b ++ 13 :: 10 :: tail := by
    rw [show natToBytes b.length ++ 13 :: 10 :: (b ++ 13 :: 10 :: tail) =
        (natToBytes b.length ++ [13, 10]) ++ (b ++ 13 :: 10 :: tail) from by simp,
      show (natToBytes b.length).length + 2 = (natToBytes b.length ++ [13, 10]).length from by
        simp]
    exact List.drop_left _ _
  rw [hdropn]
  have hc1 : ¬(b ++ 13 :: 10 :: tail).length < b.length := by
    simp only [List.length_append, List.length_cons]
    omega
  rw [if_neg hc1]
  have hdropb : (b ++ 13 :: 10 :: tail).drop b.length = 13 :: 10 :: tail :=
    List.drop_left _ _
  rw [hdropb]
  have hc2 : ¬(13 :: 10 :: tail).length < 2 := by
    simp only [List.length_cons]
    omega
  rw [if_neg hc2]
  rw [if_pos (show (13 :: 10 :: tail).take 2 = [13, 10] from rfl)]
  have htakeb : (b ++ 13 :: 10 :: tail).take b.length = b := by
    rw [takeAppLe _ _ _ (Nat.le_refl _), List.take_length]
  rw [htakeb]

lemma parseBulk_encode_null (tail : List Nat) :
    parseBulk (45 :: 49 :: 13 :: 10 :: tail) = .done .null 4 := by
  have hI := parseInteger_header [45, 49] tail (by decide) (by decide)
    (by decide) (-1) rfl
  simp only [List.cons_append, List.nil_append] at hI
  unfold parseBulk
  simp only [hI]
  rfl

lemma respParser_star (X : List Nat) : respParser (42 :: X) =
    (match parseArray X with
      | .more cm => .more (1 + cm)
      | .fail => .fail
      | .done v n => .done v (1 + n)) := by
  simp [respParser]

lemma parseElems_dollar (k : Nat) (rest : List Nat) :
    parseElems (k + 1) (36 :: rest) =
      (match parseBulk rest with
        | .more cm => .more (1 + cm)
        | .fail => .fail
        | .done v n =>
          match parseElems k (rest.drop n) with
          | .more cm => .more (1 + n + cm)
          | .fail => .fail
          | .done vs m => .done (v :: vs) (1 + n + m)) := by
  simp [parseElems]

lemma parseElems_encodeList : ∀ (vs : List RespValue),
    (∀ e ∈ vs, (∃ b, e = .bulkString b ∧ b.bytes.length < 2 ^ 63) ∨ e = .null) →
    ∀ tail, parseElems vs.length (RespCodec.encodeList vs ++ tail) =
      .done vs (RespCodec.encodeList vs).length := by
  intro vs
  induction vs with
  | nil => intro _ tail; simp [RespCodec.encodeList, parseElems]
  | cons e es ih =>
    intro hshape tail
    have hes := fun x hx => hshape x (List.mem_cons_of_mem e hx)
    rcases hshape e (List.mem_cons_self e es) with ⟨b, rfl, hb⟩ | rfl
    · have henc : RespCodec.encodeList (.bulkString b :: es) ++ tail =
          36 :: (natToBytes b.bytes.length ++ 13 :: 10 ::
            (b.bytes ++ 13 :: 10 :: (RespCodec.encodeList es ++ tail))) := by
        show ((36 :: natToBytes b.bytes.length ++ [13, 10] ++ b.bytes ++ [13, 10]) ++
          RespCodec.encodeList es) ++ tail = _
        simp
      rw [henc, show (RespValue.bulkString b :: es).length = es.length + 1 from rfl,
        parseElems_dollar]
      simp only [parseBulk_encode_bulk b.bytes hb (RespCodec.encodeList es ++ tail)]
      have hdrop : (natToBytes b.bytes.length ++ 13 :: 10 ::
          (b.bytes ++ 13 :: 10 :: (RespCodec.encodeList es ++ tail))).drop
            ((natToBytes b.bytes.length).length + 2 + b.bytes.length + 2) =
          RespCodec.encodeList es ++ tail := by
        rw [show natToBytes b.bytes.length ++ 13 :: 10 ::
            (b.bytes ++ 13 :: 10 :: (RespCodec.encodeList es ++ tail)) =
            (natToBytes b.bytes.length ++ [13, 10] ++ b.bytes ++ [13, 10]) ++
              (RespCodec.encodeList es ++ tail) from by simp,
          show (natToBytes b.bytes.length).length + 2 + b.bytes.length + 2 =
            (natToBytes b.bytes.length ++ [13, 10] ++ b.bytes ++ [13, 10]).length from by
            simp only [List.length_append, List.length_cons, List.length_nil]
            try omega]
        exact List.drop_left _ _
      rw [hdrop]
      simp only [ih hes tail]
      congr 1
      show 1 + ((natToBytes b.bytes.length).length + 2 + b.bytes.length + 2) +
        (RespCodec.encodeList es).length =
        ((36 :: natToBytes b.bytes.length ++ [13, 10] ++ b.bytes ++ [13, 10]) ++
          RespCodec.encodeList es).length
      simp only [List.length_append, List.length_cons, List.length_nil]
      omega
    · have henc : RespCodec.encodeList (.null :: es) ++ tail =
          36 :: 45 :: 49 :: 13 :: 10 :: (RespCodec.encodeList es ++ tail) := by
        show ([36, 45, 49, 13, 10] ++ RespCodec.encodeList es) ++ tail = _
        simp
      rw [henc, show (RespValue.null :: es).length = es.length + 1 from rfl,
        parseElems_dollar]
      simp only [parseBulk_encode_null (RespCodec.encodeList es ++ tail)]
      simp only [List.drop_succ_cons, List.drop_zero]
      simp only [ih hes tail]
      congr 1
      show 1 + 4 + (RespCodec.encodeList es).length =
        ([36, 45, 49, 13, 10] ++ RespCodec.encodeList es).length
      try simp only [List.length_append, List.length_cons, List.length_nil]
      try omega

/-- C2 (amended): exactly the decoder's array-shaped image round-trips —
for every `Array` whose elements are all `BulkString` or `Null` (with
lengths in `i64` range), decoding the encoding yields the value back,
consuming the whole encoding.  (Other variants do not round-trip: see
the counterexample.) -/
theorem c2_roundtrip_flat_arrays (vs : List RespValue)
    (hshape : ∀ e ∈ vs, (∃ b, e = .bulkString b ∧ b.bytes.length < 2 ^ 63) ∨ e = .null)
    (hlen : vs.length < 2 ^ 63) :
    RespCodec.decode [] (RespCodec.encode (.array vs)) =
      .ok (some (.array vs), (RespCodec.encode (.array vs)).length, []) := by
  have hmemA := natToBytes_mem vs.length
  have henc : RespCodec.encode (.array vs) =
      42 :: (natToBytes vs.length ++ 13 :: 10 :: RespCodec.encodeList vs) := by
    show 42 :: natToBytes vs.length ++ [13, 10] ++ RespCodec.encodeList vs = _
    simp
  have hI := parseInteger_header (natToBytes vs.length) (RespCodec.encodeList vs)
    (fun c hc => by have := hmemA c hc; omega)
    (fun c hc => by have := hmemA c hc; omega)
    (fun c hc => by have := hmemA c hc; exact isWS_num c (by omega) (by omega))
    (vs.length : Int) (parseI64_natToBytes vs.length hlen)
  have hA : parseArray (natToBytes vs.length ++ 13 :: 10 :: RespCodec.encodeList vs) =
      .done (.array vs)
        ((natToBytes vs.length).length + 2 + (RespCodec.encodeList vs).length) := by
    unfold parseArray
    simp only [hI]
    rw [if_neg (show ¬((vs.length : Nat) : Int) < 0 from by omega)]
    rw [show ((vs.length : Nat) : Int).toNat = vs.length from by simp]
    have hdrop : (natToBytes vs.length ++ 13 :: 10 :: RespCodec.encodeList vs).drop
        ((natToBytes vs.length).length + 2) = RespCodec.encodeList vs := by
      rw [show natToBytes vs.length ++ 13 :: 10 :: RespCodec.encodeList vs =
          (natToBytes vs.length ++ [13, 10]) ++ RespCodec.encodeList vs from by simp,
        show (natToBytes vs.length).length + 2 =
          (natToBytes vs.length ++ [13, 10]).length from by simp]
      exact List.drop_left _ _
    rw [hdrop]
    have hE := parseElems_encodeList vs hshape []
    rw [List.append_nil] at hE
    simp only [hE]
  have hresp : respParser (RespCodec.encode (.array vs)) =
      .done (.array vs) ((RespCodec.encode (.array vs)).length) := by
    rw [henc, respParser_star]
    simp only [hA]
    congr 1
    show 1 + ((natToBytes vs.length).length + 2 + (RespCodec.encodeList vs).length) =
      (42 :: (natToBytes vs.length ++ 13 :: 10 :: RespCodec.encodeList vs)).length
    simp only [List.length_append, List.length_cons]
    omega
  unfold RespCodec.decode
  simp only [List.nil_append, hresp, List.length_nil, Nat.sub_zero]

/-- Witness for C2 (amended) at a concrete input: an array of a
binary-safe bulk string (with an embedded CRLF in its payload) and a
`Null` element round-trips through encode then decode. -/
theorem c2_roundtrip_flat_arrays_witness :
    RespCodec.decode []
        (RespCodec.encode (.array [.bulkString ⟨ascii "a\r\nb"⟩, .null])) =
      .ok (some (.array [.bulkString ⟨ascii "a\r\nb"⟩, .null]),
        (RespCodec.encode (.array [.bulkString ⟨ascii "a\r\nb"⟩, .null])).length, []) :=
  c2_roundtrip_flat_arrays [.bulkString ⟨ascii "a\r\nb"⟩, .null]
    (by
      intro e he
      rcases List.mem_cons.mp he with rfl | he2
      · exact Or.inl ⟨⟨ascii "a\r\nb"⟩, rfl, by decide⟩
      · rcases List.mem_cons.mp he2 with rfl | he3
        · exact Or.inr rfl
        · simp at he3)
    (by decide)
